import Mathlib

/-!
Verification development for the kite CAG planar-subdivision engine
(`src/unnamed/part_003`, `src/js/util/Subpath.js`, `src/js/ops/Loop.js`).

The JavaScript graph module is shallowly embedded: JS numbers are modelled
as an inductive `JsNum` (finite rationals plus `nan`, `inf`, `ninf`,
following IEEE-754 comparison/arithmetic semantics for the few operations
the embedded code uses); object identity of vertices/edges is modelled by
integer ids handed out from fresh-id counters; the mutable graph becomes a
state record threaded through the functions.  Geometric operations that
live outside the graph module (positionAt, intersect, getOverlaps) are
uninterpreted parameters, exactly as the spec declares them external
collaborators.
-/

namespace Kite

/-- A JavaScript number: a finite rational, NaN, +Infinity or -Infinity. -/
inductive JsNum
  | fin (q : ℚ)
  | nan
  | inf
  | ninf
deriving DecidableEq, Repr

/-- JS `===` on numbers: NaN is not equal to anything (including itself). -/
def JsNum.jeq : JsNum → JsNum → Bool
  | .fin p, .fin q => p == q
  | .inf, .inf => true
  | .ninf, .ninf => true
  | _, _ => false

/-- IEEE addition on the sign cases the code can reach. -/
def JsNum.add : JsNum → JsNum → JsNum
  | .nan, _ => .nan
  | _, .nan => .nan
  | .inf, .ninf => .nan
  | .ninf, .inf => .nan
  | .inf, _ => .inf
  | _, .inf => .inf
  | .ninf, _ => .ninf
  | _, .ninf => .ninf
  | .fin p, .fin q => .fin (p + q)

/-- IEEE halving (multiplication by the finite constant 0.5). -/
def JsNum.half : JsNum → JsNum
  | .fin q => .fin (q / 2)
  | .nan => .nan
  | .inf => .inf
  | .ninf => .ninf

def JsNum.finite : JsNum → Bool
  | .fin _ => true
  | _ => false

/-- A 2D point (dot.Vector2) with JS-number coordinates. -/
structure Pt where
  x : JsNum
  y : JsNum
deriving DecidableEq, Repr

instance : Inhabited Pt := ⟨⟨.fin 0, .fin 0⟩⟩

/-- `Vector2.equals`: componentwise `===`. -/
def Pt.jeq (p q : Pt) : Bool := p.x.jeq q.x && p.y.jeq q.y

/-- `Vector2.average`: componentwise `(a + b) / 2` in IEEE arithmetic. -/
def Pt.avg (p q : Pt) : Pt := ⟨(p.x.add q.x).half, (p.y.add q.y).half⟩

def Pt.finite (p : Pt) : Bool := p.x.finite && p.y.finite

/-- Finite-coordinate projections (meaningful only when `Pt.finite`). -/
def Pt.fx (p : Pt) : ℚ := match p.x with | .fin q => q | _ => 0

def Pt.fy (p : Pt) : ℚ := match p.y with | .fin q => q | _ => 0

/-- `p.distance(q) < eps` for a positive rational `eps`, evaluated as the
JS expression `sqrt(dx*dx + dy*dy) < eps` would be.  For finite
coordinates this is equivalent to comparing squared distance with
`eps^2` (square root is monotone); if any coordinate is NaN or infinite
the JS comparison yields `false` (the computed distance is NaN or
+Infinity), which is what the wildcard case returns. -/
def Pt.distLt (p q : Pt) (epsSq : ℚ) : Bool :=
  match p.x, p.y, q.x, q.y with
  | .fin a, .fin b, .fin c, .fin d => decide ((a - c) ^ 2 + (b - d) ^ 2 < epsSq)
  | _, _, _, _ => false

/-- `p.distance(q) === 0`, with the same treatment of non-finite inputs
(NaN/Infinity distances are never `=== 0`). -/
def Pt.distEq0 (p q : Pt) : Bool :=
  match p.x, p.y, q.x, q.y with
  | .fin a, .fin b, .fin c, .fin d => decide ((a - c) ^ 2 + (b - d) ^ 2 = 0)
  | _, _, _, _ => false

/-- `vertexEpsilon = 1e-5` (part_003 line 32). -/
def vertexEpsilon : ℚ := 1 / 100000

/-- `vertexEpsilon` squared, used by the squared-distance comparisons. -/
def vertexEpsilonSq : ℚ := vertexEpsilon ^ 2

/-- A segment, kept symbolic: concrete input segments are `line`/`raw`
(carrying their endpoints), and `subdivided(t)` produces the symbolic
pieces `subL`/`subR` whose geometry the graph module never inspects
beyond endpoints. -/
inductive Seg
  | line (p q : Pt)
  | raw (k : ℕ) (p q : Pt)
  | subL (s : Seg) (t : ℚ)
  | subR (s : Seg) (t : ℚ)
deriving DecidableEq, Repr

instance : Inhabited Seg := ⟨Seg.line default default⟩

/-- `segment.start`.  `pos` is the uninterpreted `positionAt` of the
external segment types: `subdivided(t)[1].start = positionAt(t)`. -/
def Seg.startPt (pos : Seg → ℚ → Pt) : Seg → Pt
  | .line p _ => p
  | .raw _ p _ => p
  | .subL s _ => s.startPt pos
  | .subR s t => pos s t

/-- `segment.end`; `subdivided(t)[0].end = positionAt(t)`. -/
def Seg.endPt (pos : Seg → ℚ → Pt) : Seg → Pt
  | .line _ q => q
  | .raw _ _ q => q
  | .subL s t => pos s t
  | .subR s _ => s.endPt pos

/-- One oriented half of an edge, identified by the owning edge's id and a
direction flag (`fwd = true` for `forwardHalf`). -/
structure Half where
  eid : ℕ
  fwd : Bool
deriving DecidableEq, Repr

/-- An Edge record: a segment plus its two endpoint vertex ids. -/
structure IEdge where
  id : ℕ
  seg : Seg
  startV : ℕ
  endV : ℕ
deriving DecidableEq, Repr

/-- A Vertex record: id plus point. -/
structure Vtx where
  id : ℕ
  pt : Pt
deriving DecidableEq, Repr

/-- A Loop (ops/Loop.js): a shape id plus an ordered half-edge list. -/
structure KLoop where
  shapeId : ℕ
  halfEdges : List Half
deriving DecidableEq, Repr

/-- The Graph state (part_003 lines 40-63) restricted to the fields the
simplification phases touch.  `incident` maps a vertex id to its
`incidentHalfEdges` array; `freshV`/`freshE` model the id allocator of
the object pools. -/
structure KGraph where
  verts : List Vtx
  edges : List IEdge
  incident : ℕ → List Half
  loops : List KLoop
  shapeIds : List ℕ
  freshV : ℕ
  freshE : ℕ

/-- The empty graph. -/
def KGraph.empty : KGraph :=
  ⟨[], [], fun _ => [], [], [], 0, 0⟩

/-- Modelled from the spec: the start vertex of a half-edge
(`forwardHalf.start == startVertex`, `reversedHalf` swaps these); the
HalfEdge source file is not under src/. -/
def halfStart (e : IEdge) (fwd : Bool) : ℕ :=
  if fwd then e.startV else e.endV

/-- Modelled from the spec: the end vertex of a half-edge (the swap of
`halfStart`); consistent with the part_003 line 752 comment that a
vertex's incident half-edges have that vertex as their `endVertex`. -/
def halfEnd (e : IEdge) (fwd : Bool) : ℕ :=
  if fwd then e.endV else e.startV

/-- `Graph.addEdge` (part_003 lines 295-303): append the edge, push
`reversedHalf` on the start vertex's incident list and `forwardHalf` on
the end vertex's incident list (in that order, covering the loop-edge
case where both vertices coincide). -/
def addEdge (g : KGraph) (e : IEdge) : KGraph :=
  { g with
    edges := g.edges ++ [e]
    incident := fun v =>
      g.incident v
        ++ (if v = e.startV then [⟨e.id, false⟩] else [])
        ++ (if v = e.endV then [⟨e.id, true⟩] else []) }

/-- `Graph.removeEdge` (part_003 lines 311-317): `arrayRemove` the edge
and the two half-edges from their endpoint incident lists (first
occurrence, as `arrayRemove` removes a single element). -/
def removeEdge (g : KGraph) (e : IEdge) : KGraph :=
  { g with
    edges := g.edges.erase e
    incident := fun v =>
      let l := g.incident v
      let l := if v = e.startV then l.erase ⟨e.id, false⟩ else l
      if v = e.endV then l.erase ⟨e.id, true⟩ else l }

/-- `HalfEdge.getReversed`: the other half of the same edge. -/
def Half.reversed (h : Half) : Half := ⟨h.eid, !h.fwd⟩

/-- `Graph.replaceEdgeInLoops` (part_003 lines 326-345): in every loop,
replace each occurrence of the edge's forward half by `fwdHalves` and of
its reversed half by the reversed sequence (reverse order, each half
flipped).  The JS splice loop (descending index) performs exactly this
pointwise substitution. -/
def replaceEdgeInLoops (g : KGraph) (eid : ℕ) (fwdHalves : List Half) : KGraph :=
  let revHalves := (fwdHalves.reverse).map Half.reversed
  { g with
    loops := g.loops.map fun lp =>
      { lp with halfEdges := lp.halfEdges.flatMap fun h =>
          if h.eid = eid then (if h.fwd then fwdHalves else revHalves) else [h] } }

/-- A Subpath as the graph module reads it (util/Subpath.js): points,
segments, closed flag. -/
structure ISubpath where
  points : List Pt
  segments : List Seg
  closed : Bool

/-- `Subpath.hasClosingSegment` (Subpath.js lines 75-77):
`!getFirstPoint().equals(getLastPoint())`.  Note the `closed` flag is
not consulted.  (The JS would fault on an empty points list; the
wildcard case is unreachable under the nonempty hypotheses used below.) -/
def hasClosingSegment (sp : ISubpath) : Bool :=
  match sp.points.head?, sp.points.getLast? with
  | some f, some l => !(f.jeq l)
  | _, _ => false

/-- `Subpath.getClosingSegment` (Subpath.js lines 79-82): a Line from the
last point to the first point. -/
def getClosingSegment (sp : ISubpath) : Seg :=
  Seg.line (sp.points.getLast?.getD default) (sp.points.head?.getD default)

/-- The segment list ingested for a subpath (part_003 lines 104-107):
the subpath's segments plus the closing segment when
`hasClosingSegment()` holds. -/
def ingestSegments (sp : ISubpath) : List Seg :=
  sp.segments ++ (if hasClosingSegment sp then [getClosingSegment sp] else [])

/-- The vertex created per segment join (part_003 lines 111-127): at
`segments[index].start` when it `===`-equals `segments[previousIndex].end`
(with wraparound), else at their average.  (The distance assertion on the
unequal branch is compiled out: part_001 turns kite assertions off.) -/
def subpathVertices (pos : Seg → ℚ → Pt) (segs : List Seg) (baseV : ℕ) : List Vtx :=
  (List.range segs.length).map fun i =>
    let prev := if i = 0 then segs.length - 1 else i - 1
    let e := Seg.endPt pos (segs.getD prev default)
    let s := Seg.startPt pos (segs.getD i default)
    ⟨baseV + i, if s.jeq e then s else s.avg e⟩

/-- The edge records created per segment (part_003 lines 130-139):
`Edge(segments[index], vertices[index], vertices[nextIndex])`. -/
def subpathEdges (segs : List Seg) (baseV baseE : ℕ) : List IEdge :=
  (List.range segs.length).map fun i =>
    let next := if i + 1 = segs.length then 0 else i + 1
    ⟨baseE + i, segs.getD i default, baseV + i, baseV + next⟩

/-- `Graph.addSubpath` (part_003 lines 91-143): record the shape id if
new; return early on an empty segment list; otherwise append the
(possibly closed) segment list, create the join vertices, add one edge
per segment (via `addEdge`), push the loop of forward halves, and append
the vertices. -/
def addSubpath (pos : Seg → ℚ → Pt) (g : KGraph) (shapeId : ℕ) (sp : ISubpath) : KGraph :=
  let g1 := if g.shapeIds.contains shapeId then g
            else { g with shapeIds := g.shapeIds ++ [shapeId] }
  if sp.segments.isEmpty then g1
  else
    let segs := ingestSegments sp
    let vs := subpathVertices pos segs g1.freshV
    let es := subpathEdges segs g1.freshV g1.freshE
    let lp : KLoop := ⟨shapeId, es.map fun e => ⟨e.id, true⟩⟩
    let g2 := es.foldl addEdge g1
    { g2 with
      loops := g2.loops ++ [lp]
      verts := g2.verts ++ vs
      freshV := g1.freshV + segs.length
      freshE := g1.freshE + segs.length }

/-- An intersection record returned by `Segment.intersect`. -/
structure Inter where
  aT : ℚ
  bT : ℚ
  point : Pt
deriving DecidableEq, Repr

/-- `t > 1e-5 && t < 1 - 1e-5` (part_003 lines 605-606 and 627-628). -/
def tInternal (t : ℚ) : Bool :=
  decide (vertexEpsilon < t) && decide (t < 1 - vertexEpsilon)

/-- The intersection filter of `eliminateIntersection` (part_003 lines
600-608): keep an intersection when at least one parameter is internal. -/
def acceptInter (it : Inter) : Bool :=
  tInternal it.aT || tInternal it.bT

/-- `Graph.splitEdge` (part_003 lines 650-669): subdivide the segment at
`t`, build the two replacement edges through `vertex`, remove the old
edge, add both, and splice the loops. -/
def splitEdge (g : KGraph) (e : IEdge) (t : ℚ) (vid : ℕ) : KGraph :=
  let firstEdge : IEdge := ⟨g.freshE, .subL e.seg t, e.startV, vid⟩
  let secondEdge : IEdge := ⟨g.freshE + 1, .subR e.seg t, vid, e.endV⟩
  let g1 := removeEdge g e
  let g2 := addEdge (addEdge g1 firstEdge) secondEdge
  let g3 := replaceEdgeInLoops g2 e.id [⟨firstEdge.id, true⟩, ⟨secondEdge.id, true⟩]
  { g3 with freshE := g.freshE + 2 }

/-- The vertex `simpleSplit` uses for both sides (part_003 lines 630-640):
the nearer endpoint of `a` when `aT` is not internal, else the nearer
endpoint of `b` when `bT` is not internal, else a fresh vertex at the
intersection point. -/
def simpleSplitVertexId (g : KGraph) (ae be : IEdge) (aT bT : ℚ) : ℕ :=
  if !(tInternal aT) then (if aT < 1/2 then ae.startV else ae.endV)
  else if !(tInternal bT) then (if bT < 1/2 then be.startV else be.endV)
  else g.freshV

/-- `Graph.simpleSplit` (part_003 lines 625-648). -/
def simpleSplit (g : KGraph) (ae be : IEdge) (aT bT : ℚ) (point : Pt) : KGraph :=
  let aInt := tInternal aT
  let bInt := tInternal bT
  let vid := simpleSplitVertexId g ae be aT bT
  let g1 := if aInt && bInt
            then { g with verts := g.verts ++ [⟨g.freshV, point⟩], freshV := g.freshV + 1 }
            else g
  let g2 := if aInt then splitEdge g1 ae aT vid else g1
  if bInt then splitEdge g2 be bT vid else g2

/-- The pair scan of `eliminateIntersection` (part_003 lines 591-621),
with `Segment.intersect` as an oracle: inner scan of a fixed `a` against
the later edges, returning the first pair whose filtered intersection
list is nonempty, together with that list's first element. -/
def scanInterWith (intersect : Seg → Seg → List Inter) (a : IEdge) :
    List IEdge → Option (IEdge × Inter)
  | [] => none
  | b :: rest =>
    match ((intersect a.seg b.seg).filter acceptInter).head? with
    | some it => some (b, it)
    | none => scanInterWith intersect a rest

/-- Outer pair scan of `eliminateIntersection`: unordered pairs in index
order (`i < j`). -/
def scanInterPairs (intersect : Seg → Seg → List Inter) :
    List IEdge → Option (IEdge × IEdge × Inter)
  | [] => none
  | a :: rest =>
    match scanInterWith intersect a rest with
    | some (b, it) => some (a, b, it)
    | none => scanInterPairs intersect rest

/-- One body iteration of `eliminateIntersection`'s `while` loop: split at
the first accepted intersection, or leave the graph unchanged when none
remains. -/
def eliminateIntersectionStep (intersect : Seg → Seg → List Inter) (g : KGraph) : KGraph :=
  match scanInterPairs intersect g.edges with
  | none => g
  | some (ae, be, it) => simpleSplit g ae be it.aT it.bT it.point

/-- An overlap record `{t0, t1, qt0, qt1, a}` from a like-type
`getOverlaps`. -/
structure Overlap where
  t0 : ℚ
  t1 : ℚ
  qt0 : ℚ
  qt1 : ℚ
  a : ℚ
deriving DecidableEq, Repr

/-- The significance test of `eliminateOverlap` (part_003 lines 426-427):
both parameter ranges longer than `1e-5`. -/
def significantOverlap (ov : Overlap) : Bool :=
  decide (vertexEpsilon < |ov.t1 - ov.t0|) && decide (vertexEpsilon < |ov.qt1 - ov.qt0|)

/-- Endpoint snapping in `splitOverlap` (part_003 lines 456-459): a low
parameter under `1e-5` becomes exactly 0. -/
def snap0 (t : ℚ) : ℚ := if t < vertexEpsilon then 0 else t

/-- Endpoint snapping in `splitOverlap`: a high parameter above
`1 - 1e-5` becomes exactly 1. -/
def snap1 (t : ℚ) : ℚ := if 1 - vertexEpsilon < t then 1 else t

/-- The middle (coincident) sub-segment of `splitOverlap` (part_003 lines
466-472), built from `a`'s parameterization: cut below `t0` when
`t0 > 0`, then above the re-scaled `t1` (`Util.linear(t0, 1, 0, 1, t1)`)
when `t1 < 1`. -/
def overlapMiddle (aSeg : Seg) (t0 t1 : ℚ) : Seg :=
  let m1 := if 0 < t0 then .subR aSeg t0 else aSeg
  if t1 < 1 then .subL m1 ((t1 - t0) / (1 - t0)) else m1

/-- The `beforeVertex` of `splitOverlap` (part_003 lines 474-484): fresh
when both sides have a "before" piece, else `b`'s matching endpoint
(by the orientation sign) when only `a` has one, else `a`'s start. -/
def splitOverlapBeforeVid (g : KGraph) (ae be : IEdge) (ov : Overlap) : ℕ :=
  if 0 < snap0 ov.t0 ∧ 0 < snap0 ov.qt0 then g.freshV
  else if 0 < snap0 ov.t0 then (if 0 < ov.a then be.startV else be.endV)
  else ae.startV

/-- The `afterVertex` of `splitOverlap` (part_003 lines 486-496); its
fresh id comes after `beforeVertex`'s when both are newly created. -/
def splitOverlapAfterVid (g : KGraph) (ae be : IEdge) (ov : Overlap) : ℕ :=
  if snap1 ov.t1 < 1 ∧ snap1 ov.qt1 < 1 then
    (if 0 < snap0 ov.t0 ∧ 0 < snap0 ov.qt0 then g.freshV + 1 else g.freshV)
  else if snap1 ov.t1 < 1 then (if 0 < ov.a then be.endV else be.startV)
  else ae.endV

/-- The single shared middle edge of `splitOverlap` (part_003 line 498). -/
def splitOverlapMiddleEdge (g : KGraph) (ae be : IEdge) (ov : Overlap) : IEdge :=
  ⟨g.freshE, overlapMiddle ae.seg (snap0 ov.t0) (snap1 ov.t1),
    splitOverlapBeforeVid g ae be ov, splitOverlapAfterVid g ae be ov⟩

/-- The new vertices of `splitOverlap`, created at the middle segment's
endpoints (part_003 lines 476-477 and 488-489). -/
def splitOverlapNewVerts (pos : Seg → ℚ → Pt) (g : KGraph) (ae be : IEdge)
    (ov : Overlap) : List Vtx :=
  (if 0 < snap0 ov.t0 ∧ 0 < snap0 ov.qt0 then
    [⟨splitOverlapBeforeVid g ae be ov,
      (overlapMiddle ae.seg (snap0 ov.t0) (snap1 ov.t1)).startPt pos⟩] else [])
  ++ (if snap1 ov.t1 < 1 ∧ snap1 ov.qt1 < 1 then
    [⟨splitOverlapAfterVid g ae be ov,
      (overlapMiddle ae.seg (snap0 ov.t0) (snap1 ov.t1)).endPt pos⟩] else [])

/-- The up-to-five new edges of `splitOverlap` in creation order: middle,
a-before, a-after, b-before, b-after (part_003 lines 498-521); `b`'s
outer pieces attach to the before/after vertex following the
orientation sign `a`. -/
def splitOverlapNewEdges (g : KGraph) (ae be : IEdge) (ov : Overlap) : List IEdge :=
  [splitOverlapMiddleEdge g ae be ov]
  ++ (if 0 < snap0 ov.t0 then
    [⟨g.freshE + 1, .subL ae.seg (snap0 ov.t0), ae.startV,
      splitOverlapBeforeVid g ae be ov⟩] else [])
  ++ (if snap1 ov.t1 < 1 then
    [⟨g.freshE + 2, .subR ae.seg (snap1 ov.t1),
      splitOverlapAfterVid g ae be ov, ae.endV⟩] else [])
  ++ (if 0 < snap0 ov.qt0 then
    [⟨g.freshE + 3, .subL be.seg (snap0 ov.qt0), be.startV,
      if 0 < ov.a then splitOverlapBeforeVid g ae be ov
      else splitOverlapAfterVid g ae be ov⟩] else [])
  ++ (if snap1 ov.qt1 < 1 then
    [⟨g.freshE + 4, .subR be.seg (snap1 ov.qt1),
      (if 0 < ov.a then splitOverlapAfterVid g ae be ov
       else splitOverlapBeforeVid g ae be ov), be.endV⟩] else [])

/-- The ordered forward-half sequence replacing `a`'s loop occurrences
(part_003 lines 523, 529-531): a-before, middle, a-after. -/
def splitOverlapAHalves (g : KGraph) (ov : Overlap) : List Half :=
  (if 0 < snap0 ov.t0 then [⟨g.freshE + 1, true⟩] else [])
  ++ [⟨g.freshE, true⟩]
  ++ (if snap1 ov.t1 < 1 then [⟨g.freshE + 2, true⟩] else [])

/-- The ordered half sequence replacing `b`'s loop occurrences (part_003
lines 524, 532-536): b-before, middle (reversed when the orientation
sign is negative), b-after. -/
def splitOverlapBHalves (g : KGraph) (ov : Overlap) : List Half :=
  (if 0 < snap0 ov.qt0 then [⟨g.freshE + 3, true⟩] else [])
  ++ [⟨g.freshE, decide (0 < ov.a)⟩]
  ++ (if snap1 ov.qt1 < 1 then [⟨g.freshE + 4, true⟩] else [])

/-- `Graph.splitOverlap` (part_003 lines 442-544): remove both edges,
snap the overlap parameters, create the join vertices and the up-to-five
new edges (sharing the single middle edge), and splice both edges' loop
occurrences with the ordered half sequences. -/
def splitOverlap (pos : Seg → ℚ → Pt) (g : KGraph) (ae be : IEdge) (ov : Overlap) : KGraph :=
  let g1 := removeEdge (removeEdge g ae) be
  let g2 := { g1 with
    verts := g1.verts ++ splitOverlapNewVerts pos g ae be ov
    freshV := g.freshV + (splitOverlapNewVerts pos g ae be ov).length }
  let g3 := (splitOverlapNewEdges g ae be ov).foldl addEdge g2
  let g4 := replaceEdgeInLoops
    (replaceEdgeInLoops g3 ae.id (splitOverlapAHalves g ov))
    be.id (splitOverlapBHalves g ov)
  { g4 with freshE := g.freshE + 5 }

/-- Inner overlap scan of `eliminateOverlap` (part_003 lines 402-437):
for a fixed `a`, the first later edge having a significant overlap
(the `k` loop picks the first significant record). -/
def scanOverlapWith (getOv : Seg → Seg → List Overlap) (a : IEdge) :
    List IEdge → Option (IEdge × Overlap)
  | [] => none
  | b :: rest =>
    match (getOv a.seg b.seg).find? significantOverlap with
    | some ov => some (b, ov)
    | none => scanOverlapWith getOv a rest

/-- Outer pair scan of `eliminateOverlap` (`i < j` index order). -/
def scanOverlapPairs (getOv : Seg → Seg → List Overlap) :
    List IEdge → Option (IEdge × IEdge × Overlap)
  | [] => none
  | a :: rest =>
    match scanOverlapWith getOv a rest with
    | some (b, ov) => some (a, b, ov)
    | none => scanOverlapPairs getOv rest

/-- One body iteration of `eliminateOverlap`'s `while` loop. -/
def eliminateOverlapStep (pos : Seg → ℚ → Pt) (getOv : Seg → Seg → List Overlap)
    (g : KGraph) : KGraph :=
  match scanOverlapPairs getOv g.edges with
  | none => g
  | some (ae, be, ov) => splitOverlap pos g ae be ov

/-- The pair scan of `collapseVertices` (part_003 lines 679-686): the
first vertex pair (in `i < j` index order) at distance below
`vertexEpsilon`. -/
def findClosePair : List Vtx → Option (Vtx × Vtx)
  | [] => none
  | a :: rest =>
    match rest.find? (fun b => a.pt.distLt b.pt vertexEpsilonSq) with
    | some b => some (a, b)
    | none => findClosePair rest

/-- One merge of `collapseVertices` (part_003 lines 687-716): create the
merged vertex (at `a`'s point when the distance is exactly 0, else at
the average), push it and remove `a` and `b`, then rewrite every edge:
edges joining `a`/`b` on both ends are removed outright and spliced out
of all loops; other edges touching `a`/`b` are re-pointed at the new
vertex, whose incident list receives their halves in the descending
order of the `k` loop. -/
def mergeVertices (g : KGraph) (a b : Vtx) : KGraph :=
  let newPt := if a.pt.distEq0 b.pt then a.pt else a.pt.avg b.pt
  let nv : Vtx := ⟨g.freshV, newPt⟩
  let vmatch : ℕ → Bool := fun v => v = a.id || v = b.id
  let bothMatch : IEdge → Bool := fun e => vmatch e.startV && vmatch e.endV
  let removedIds : List ℕ := (g.edges.filter bothMatch).map IEdge.id
  let keptEdges : List IEdge := g.edges.filterMap fun e =>
    if bothMatch e then none
    else if vmatch e.startV then some { e with startV := nv.id }
    else if vmatch e.endV then some { e with endV := nv.id }
    else some e
  let nvIncident : List Half := (g.edges.reverse).filterMap fun e =>
    if bothMatch e then none
    else if vmatch e.startV then some ⟨e.id, false⟩
    else if vmatch e.endV then some ⟨e.id, true⟩
    else none
  { verts := ((g.verts ++ [nv]).erase a).erase b
    edges := keptEdges
    incident := fun v => if v = nv.id then g.incident nv.id ++ nvIncident else g.incident v
    loops := g.loops.map fun lp =>
      { lp with halfEdges := lp.halfEdges.filter fun h => !(removedIds.contains h.eid) }
    shapeIds := g.shapeIds
    freshV := g.freshV + 1
    freshE := g.freshE }

/-- `Graph.collapseVertices` (part_003 lines 671-727) with explicit fuel
for the restart loop: scan for a close pair, merge, and restart; `none`
signals exhausted fuel (each merge removes a net vertex, so fuel
`g.verts.length` always suffices). -/
def collapseVertices : ℕ → KGraph → Option KGraph
  | fuel, g =>
    match findClosePair g.verts with
    | none => some g
    | some (a, b) =>
      match fuel with
      | 0 => none
      | f + 1 => collapseVertices f (mergeVertices g a b)

/-!
The face phases (`computeWindingMap`, `fillAlternatingFaces`) run after
face extraction; they only read the face references of the two halves of
each edge, the loops and the shape ids.  They are embedded over a
dedicated state in which faces and edges are ids and the two face
references of an edge are given by `fface`/`rface`.
-/

/-- The face-phase view of the graph: face ids (with the distinguished
unbounded face), edge ids, the faces on the forward-half and
reversed-half sides of each edge, the loops (half-edges as
edge-id/direction pairs) and the shape ids. -/
structure WGraph where
  faces : List ℕ
  unbounded : ℕ
  edges : List ℕ
  fface : ℕ → ℕ
  rface : ℕ → ℕ
  loops : List KLoop
  shapeIds : List ℕ

/-- `Graph.computeDifferential` (part_003 lines 975-994): over all loops
with the given shape id, +1 per occurrence of the edge's forward half
and -1 per occurrence of its reversed half. -/
def computeDifferential (g : WGraph) (e : ℕ) (s : ℕ) : ℤ :=
  g.loops.foldl
    (fun acc lp =>
      if lp.shapeId = s then
        lp.halfEdges.foldl
          (fun d h =>
            if h = ⟨e, true⟩ then d + 1 else if h = ⟨e, false⟩ then d - 1 else d)
          acc
      else acc)
    0

/-- The winding state: per face id, `none` (unsolved) or a winding map
(total over shape ids; the JS object has keys only for the recorded
shape ids, and is only ever read at those keys). -/
def WMap : Type := ℕ → Option (ℕ → ℤ)

/-- One full descending-`j` pass of `computeWindingMap`'s inner `for`
loop (part_003 lines 924-962).  The JS loop runs `j` from the top index
down, so the tail of the list is processed first; an edge with both
sides solved is spliced out, an edge with exactly one side solved
propagates the differential onto the unsolved side, and an edge with
neither side solved is kept. -/
def windingPass (g : WGraph) : List ℕ → WMap → List ℕ × WMap
  | [], w => ([], w)
  | e :: rest, w =>
    let p := windingPass g rest w
    let rest' := p.1
    let w' := p.2
    match w' (g.fface e), w' (g.rface e) with
    | some _, some _ => (rest', w')
    | none, none => (e :: rest', w')
    | some mf, none =>
      let m : ℕ → ℤ := fun s => mf s + computeDifferential g e s * (-1)
      (e :: rest', fun f => if f = g.rface e then some m else w' f)
    | none, some mr =>
      let m : ℕ → ℤ := fun s => mr s + computeDifferential g e s * 1
      (e :: rest', fun f => if f = g.fface e then some m else w' f)

/-- The initial winding state (part_003 lines 916-921): the unbounded
face gets the all-zero map, every other face is unsolved. -/
def windingInit (g : WGraph) : WMap :=
  fun f => if f = g.unbounded then some (fun _ => 0) else none

/-- The outer `while (edges.length)` loop of `computeWindingMap` with
explicit fuel: `none` means the fuel ran out with edges remaining (the
JS loop would still be running). -/
def windingLoop (g : WGraph) : ℕ → List ℕ → WMap → Option WMap
  | fuel, es, w =>
    if es.isEmpty then some w
    else
      match fuel with
      | 0 => none
      | f + 1 =>
        let p := windingPass g es w
        windingLoop g f p.1 p.2

/-- `Graph.computeWindingMap` (part_003 lines 913-964). -/
def computeWindingMap (g : WGraph) (fuel : ℕ) : Option WMap :=
  windingLoop g fuel g.edges (windingInit g)

/-- The fill state of `fillAlternatingFaces`: per face id, `none` or a
boolean. -/
def FMap : Type := ℕ → Option Bool

/-- One edge step of `fillAlternatingFaces`'s inner `for` loop (part_003
lines 1007-1023): when exactly one side's face is still null, it gets
the negation of the other side's value. -/
def fillStep (g : WGraph) (w : FMap) (e : ℕ) : FMap :=
  match w (g.fface e), w (g.rface e) with
  | none, some b => fun f => if f = g.fface e then some (!b) else w f
  | some b, none => fun f => if f = g.rface e then some (!b) else w f
  | _, _ => w

/-- One full ascending pass over the edge list. -/
def fillPass (g : WGraph) (w : FMap) : FMap :=
  g.edges.foldl (fillStep g) w

/-- The initial fill state (part_003 lines 998-1004): every face null,
then the unbounded face set to `false`. -/
def fillInit (g : WGraph) : FMap :=
  fun f => if f = g.unbounded then some false else none

/-- The number of faces whose `filled` is still null — the JS
`nullFaceFilledCount`, which is exact when the face list has no
duplicates, contains the unbounded face, and contains the faces of all
edges (the hypotheses of the theorems below). -/
def nullCount (g : WGraph) (w : FMap) : ℕ :=
  (g.faces.filter fun f => (w f).isNone).length

/-- The `while (nullFaceFilledCount)` loop of `fillAlternatingFaces` with
explicit fuel; `none` means the count never reached zero within the
fuel. -/
def fillLoop (g : WGraph) : ℕ → FMap → Option FMap
  | fuel, w =>
    if nullCount g w = 0 then some w
    else
      match fuel with
      | 0 => none
      | f + 1 => fillLoop g f (fillPass g w)

/-- `Graph.fillAlternatingFaces` (part_003 lines 996-1025). -/
def fillAlternatingFaces (g : WGraph) (fuel : ℕ) : Option FMap :=
  fillLoop g fuel (fillInit g)

/-- Face adjacency reachability from the unbounded face: step from a face
to the other face of any edge adjacent to it. -/
inductive WReach (g : WGraph) : ℕ → Prop
  | base : WReach g g.unbounded
  | step {f f' e : ℕ} : WReach g f → e ∈ g.edges →
      (g.fface e = f ∧ g.rface e = f') ∨ (g.rface e = f ∧ g.fface e = f') →
      WReach g f'

/-- Provenance invariant of `fillAlternatingFaces`: every decided face is
either the unbounded face (decided `false` at initialization) or was
assigned the negation of the value of the face across some edge. -/
def fillProv (g : WGraph) (w : FMap) : Prop :=
  ∀ f b, w f = some b →
    (f = g.unbounded ∧ b = false) ∨
    ∃ e ∈ g.edges, ∃ b2 : Bool,
      ((g.fface e = f ∧ g.rface e ≠ f ∧ w (g.rface e) = some b2) ∨
       (g.rface e = f ∧ g.fface e ≠ f ∧ w (g.fface e) = some b2)) ∧ b = !b2

/-! ### Helper lemmas about `addEdge` folds and ingestion -/

theorem addEdge_edges (g : KGraph) (e : IEdge) :
    (addEdge g e).edges = g.edges ++ [e] := rfl

theorem foldl_addEdge_edges (es : List IEdge) (g : KGraph) :
    (es.foldl addEdge g).edges = g.edges ++ es := by
  induction es generalizing g with
  | nil => simp
  | cons e rest ih => simp [List.foldl_cons, ih, addEdge]

theorem foldl_addEdge_verts (es : List IEdge) (g : KGraph) :
    (es.foldl addEdge g).verts = g.verts := by
  induction es generalizing g with
  | nil => rfl
  | cons e rest ih => simp [List.foldl_cons, ih, addEdge]

theorem foldl_addEdge_loops (es : List IEdge) (g : KGraph) :
    (es.foldl addEdge g).loops = g.loops := by
  induction es generalizing g with
  | nil => rfl
  | cons e rest ih => simp [List.foldl_cons, ih, addEdge]

theorem foldl_addEdge_shapeIds (es : List IEdge) (g : KGraph) :
    (es.foldl addEdge g).shapeIds = g.shapeIds := by
  induction es generalizing g with
  | nil => rfl
  | cons e rest ih => simp [List.foldl_cons, ih, addEdge]

theorem addSubpath_counts (pos : Seg → ℚ → Pt) (g : KGraph) (sid : ℕ)
    (sp : ISubpath) (h : sp.segments ≠ []) :
    (addSubpath pos g sid sp).edges.length = g.edges.length + (ingestSegments sp).length ∧
    (addSubpath pos g sid sp).loops.length = g.loops.length + 1 ∧
    (addSubpath pos g sid sp).verts.length = g.verts.length + (ingestSegments sp).length := by
  have hne : sp.segments.isEmpty = false := by
    simpa [List.isEmpty_iff] using h
  unfold addSubpath
  by_cases hc : sid ∈ g.shapeIds <;>
    simp [hc, hne, foldl_addEdge_edges, foldl_addEdge_verts, foldl_addEdge_loops,
      subpathEdges, subpathVertices]

/-! ### Claim C9 -/

/-- Claim C9: calling `addSubpath` with an empty segment list still
records the shape id (appending it when not already present) and leaves
the vertices, edges and loops of the graph unchanged. -/
theorem addSubpath_empty_subpath_frame (pos : Seg → ℚ → Pt) (g : KGraph)
    (sid : ℕ) (sp : ISubpath) (h : sp.segments = []) :
    (addSubpath pos g sid sp).verts = g.verts ∧
    (addSubpath pos g sid sp).edges = g.edges ∧
    (addSubpath pos g sid sp).loops = g.loops ∧
    (addSubpath pos g sid sp).shapeIds =
      (if sid ∈ g.shapeIds then g.shapeIds else g.shapeIds ++ [sid]) := by
  unfold addSubpath
  by_cases hc : sid ∈ g.shapeIds <;>
    simp [h, hc]

/-- Witness for C9 at a concrete empty subpath. -/
theorem addSubpath_empty_subpath_frame_witness :
    (addSubpath (fun _ _ => default) KGraph.empty 3 ⟨[], [], false⟩).verts =
        KGraph.empty.verts ∧
    (addSubpath (fun _ _ => default) KGraph.empty 3 ⟨[], [], false⟩).edges =
        KGraph.empty.edges ∧
    (addSubpath (fun _ _ => default) KGraph.empty 3 ⟨[], [], false⟩).loops =
        KGraph.empty.loops ∧
    (addSubpath (fun _ _ => default) KGraph.empty 3 ⟨[], [], false⟩).shapeIds =
      (if 3 ∈ KGraph.empty.shapeIds then KGraph.empty.shapeIds
       else KGraph.empty.shapeIds ++ [3]) :=
  addSubpath_empty_subpath_frame (fun _ _ => default) KGraph.empty 3 ⟨[], [], false⟩ rfl

/-! ### Claim C2 -/

/-- Counterexample to C2 as stated: a subpath that is NOT marked closed
but whose last point differs from its first point still gets the
implicit closing Line appended, because `Subpath.hasClosingSegment`
(Subpath.js lines 75-77) never consults the `closed` flag.  The segment
list grows from 1 to 2 although `closed = false`. -/
theorem closing_segment_appended_though_open :
    (ingestSegments ⟨[⟨.fin 0, .fin 0⟩, ⟨.fin 1, .fin 0⟩],
        [Seg.line ⟨.fin 0, .fin 0⟩ ⟨.fin 1, .fin 0⟩], false⟩).length = 2 ∧
    (ISubpath.closed ⟨[⟨.fin 0, .fin 0⟩, ⟨.fin 1, .fin 0⟩],
        [Seg.line ⟨.fin 0, .fin 0⟩ ⟨.fin 1, .fin 0⟩], false⟩) = false ∧
    (ISubpath.segments ⟨[⟨.fin 0, .fin 0⟩, ⟨.fin 1, .fin 0⟩],
        [Seg.line ⟨.fin 0, .fin 0⟩ ⟨.fin 1, .fin 0⟩], false⟩).length = 1 := by
  decide

/-- Claim C2 (amended): during ingestion the implicit closing Line (from
the last point back to the first point) is appended to the segment list
if and only if the subpath's last point is not `===`-equal to its first
point; the `closed` flag plays no part.  The appended list is what
`addSubpath` creates one edge per segment from. -/
theorem ingest_closing_segment_iff (pos : Seg → ℚ → Pt) (g : KGraph) (sid : ℕ)
    (sp : ISubpath) (f l : Pt)
    (hf : sp.points.head? = some f) (hl : sp.points.getLast? = some l) :
    (ingestSegments sp = sp.segments ++ [Seg.line l f] ↔ f.jeq l = false) ∧
    (f.jeq l = true → ingestSegments sp = sp.segments) ∧
    (sp.segments ≠ [] →
      (addSubpath pos g sid sp).edges.length =
        g.edges.length + (ingestSegments sp).length) := by
  have hclose : hasClosingSegment sp = !(f.jeq l) := by
    simp [hasClosingSegment, hf, hl]
  have hget : getClosingSegment sp = Seg.line l f := by
    simp [getClosingSegment, hf, hl]
  refine ⟨?_, ?_, fun h => (addSubpath_counts pos g sid sp h).1⟩
  · constructor
    · intro happ
      by_contra hne
      have hjeq : f.jeq l = true := by
        cases hj : f.jeq l
        · exact absurd hj hne
        · rfl
      have : ingestSegments sp = sp.segments := by
        simp [ingestSegments, hclose, hjeq]
      rw [this] at happ
      have := congrArg List.length happ
      simp at this
    · intro hjeq
      simp [ingestSegments, hclose, hjeq, hget]
  · intro hjeq
    simp [ingestSegments, hclose, hjeq]

/-- Witness for the C2 theorem at a concrete open subpath with distinct
endpoints. -/
theorem ingest_closing_segment_iff_witness :
    (ingestSegments ⟨[⟨.fin 0, .fin 0⟩, ⟨.fin 2, .fin 0⟩],
          [Seg.line ⟨.fin 0, .fin 0⟩ ⟨.fin 2, .fin 0⟩], false⟩ =
        [Seg.line ⟨.fin 0, .fin 0⟩ ⟨.fin 2, .fin 0⟩] ++
          [Seg.line ⟨.fin 2, .fin 0⟩ ⟨.fin 0, .fin 0⟩] ↔
      Pt.jeq ⟨.fin 0, .fin 0⟩ ⟨.fin 2, .fin 0⟩ = false) ∧
    (Pt.jeq ⟨.fin 0, .fin 0⟩ ⟨.fin 2, .fin 0⟩ = true →
      ingestSegments ⟨[⟨.fin 0, .fin 0⟩, ⟨.fin 2, .fin 0⟩],
          [Seg.line ⟨.fin 0, .fin 0⟩ ⟨.fin 2, .fin 0⟩], false⟩ =
        [Seg.line ⟨.fin 0, .fin 0⟩ ⟨.fin 2, .fin 0⟩]) ∧
    ([Seg.line ⟨.fin 0, .fin 0⟩ ⟨.fin 2, .fin 0⟩] ≠ ([] : List Seg) →
      (addSubpath (fun _ _ => default) KGraph.empty 0
          ⟨[⟨.fin 0, .fin 0⟩, ⟨.fin 2, .fin 0⟩],
            [Seg.line ⟨.fin 0, .fin 0⟩ ⟨.fin 2, .fin 0⟩], false⟩).edges.length =
        KGraph.empty.edges.length +
          (ingestSegments ⟨[⟨.fin 0, .fin 0⟩, ⟨.fin 2, .fin 0⟩],
            [Seg.line ⟨.fin 0, .fin 0⟩ ⟨.fin 2, .fin 0⟩], false⟩).length) :=
  ingest_closing_segment_iff (fun _ _ => default) KGraph.empty 0
    ⟨[⟨.fin 0, .fin 0⟩, ⟨.fin 2, .fin 0⟩],
      [Seg.line ⟨.fin 0, .fin 0⟩ ⟨.fin 2, .fin 0⟩], false⟩
    ⟨.fin 0, .fin 0⟩ ⟨.fin 2, .fin 0⟩ rfl rfl

/-! ### Claim C3 -/

/-- Counterexample to C3 as stated: `addSubpath` contains no finiteness
check and no `InvalidGeometry` error path (the only assertions in
part_003 lines 92-124 are compiled out; part_001 disables kite
assertions).  Ingesting a subpath whose first coordinate is +Infinity
completes normally: two edges, two vertices and one loop are added,
exactly as for finite input. -/
theorem addSubpath_accepts_nonfinite :
    Pt.finite ⟨.inf, .fin 0⟩ = false ∧
    (addSubpath (fun _ _ => default) KGraph.empty 0
        ⟨[⟨.inf, .fin 0⟩, ⟨.fin 1, .fin 1⟩],
          [Seg.raw 0 ⟨.inf, .fin 0⟩ ⟨.fin 1, .fin 1⟩], true⟩).edges.length = 2 ∧
    (addSubpath (fun _ _ => default) KGraph.empty 0
        ⟨[⟨.inf, .fin 0⟩, ⟨.fin 1, .fin 1⟩],
          [Seg.raw 0 ⟨.inf, .fin 0⟩ ⟨.fin 1, .fin 1⟩], true⟩).verts.length = 2 ∧
    (addSubpath (fun _ _ => default) KGraph.empty 0
        ⟨[⟨.inf, .fin 0⟩, ⟨.fin 1, .fin 1⟩],
          [Seg.raw 0 ⟨.inf, .fin 0⟩ ⟨.fin 1, .fin 1⟩], true⟩).loops.length = 1 := by
  decide

/-- Claim C3 (amended): ingestion never fails — `addSubpath` is total and
performs no finiteness validation, so for every nonempty subpath
(finite-coordinate or not) it returns normally, adding one edge and one
vertex per ingested segment and one loop; no `InvalidGeometry` error is
ever surfaced. -/
theorem addSubpath_never_fails (pos : Seg → ℚ → Pt) (g : KGraph) (sid : ℕ)
    (sp : ISubpath) (h : sp.segments ≠ []) :
    (addSubpath pos g sid sp).edges.length =
        g.edges.length + (ingestSegments sp).length ∧
    (addSubpath pos g sid sp).loops.length = g.loops.length + 1 ∧
    (addSubpath pos g sid sp).verts.length =
        g.verts.length + (ingestSegments sp).length :=
  addSubpath_counts pos g sid sp h

/-- Witness for the C3 theorem, run on the non-finite subpath itself. -/
theorem addSubpath_never_fails_witness :
    (addSubpath (fun _ _ => default) KGraph.empty 7
        ⟨[⟨.inf, .fin 0⟩, ⟨.fin 1, .fin 1⟩],
          [Seg.raw 0 ⟨.inf, .fin 0⟩ ⟨.fin 1, .fin 1⟩], true⟩).edges.length =
        KGraph.empty.edges.length +
          (ingestSegments ⟨[⟨.inf, .fin 0⟩, ⟨.fin 1, .fin 1⟩],
            [Seg.raw 0 ⟨.inf, .fin 0⟩ ⟨.fin 1, .fin 1⟩], true⟩).length ∧
    (addSubpath (fun _ _ => default) KGraph.empty 7
        ⟨[⟨.inf, .fin 0⟩, ⟨.fin 1, .fin 1⟩],
          [Seg.raw 0 ⟨.inf, .fin 0⟩ ⟨.fin 1, .fin 1⟩], true⟩).loops.length =
        KGraph.empty.loops.length + 1 ∧
    (addSubpath (fun _ _ => default) KGraph.empty 7
        ⟨[⟨.inf, .fin 0⟩, ⟨.fin 1, .fin 1⟩],
          [Seg.raw 0 ⟨.inf, .fin 0⟩ ⟨.fin 1, .fin 1⟩], true⟩).verts.length =
        KGraph.empty.verts.length +
          (ingestSegments ⟨[⟨.inf, .fin 0⟩, ⟨.fin 1, .fin 1⟩],
            [Seg.raw 0 ⟨.inf, .fin 0⟩ ⟨.fin 1, .fin 1⟩], true⟩).length :=
  addSubpath_never_fails (fun _ _ => default) KGraph.empty 7
    ⟨[⟨.inf, .fin 0⟩, ⟨.fin 1, .fin 1⟩],
      [Seg.raw 0 ⟨.inf, .fin 0⟩ ⟨.fin 1, .fin 1⟩], true⟩ (by decide)

/-! ### Claim C4 -/

/-- The incidence invariant that `addEdge` actually maintains: a vertex's
`incidentHalfEdges` list contains exactly once every half-edge whose END
vertex is that vertex (over the edges currently in the graph), and no
other half-edges. -/
def halfIncidentInv (g : KGraph) : Prop :=
  ∀ (vid eid : ℕ) (d : Bool),
    (g.incident vid).count ⟨eid, d⟩ =
      if ∃ e ∈ g.edges, e.id = eid ∧ halfEnd e d = vid then 1 else 0

theorem addEdge_preserves_inv (g : KGraph) (e : IEdge)
    (hfresh : ∀ e' ∈ g.edges, e'.id ≠ e.id)
    (hinv : halfIncidentInv g) : halfIncidentInv (addEdge g e) := by
  intro vid eid d
  have base := hinv vid eid d
  show ((g.incident vid)
      ++ (if vid = e.startV then [(⟨e.id, false⟩ : Half)] else [])
      ++ (if vid = e.endV then [(⟨e.id, true⟩ : Half)] else [])).count (⟨eid, d⟩ : Half) =
    if ∃ e' ∈ g.edges ++ [e], e'.id = eid ∧ halfEnd e' d = vid then 1 else 0
  rw [List.count_append, List.count_append, base]
  have hB : (if vid = e.startV then [(⟨e.id, false⟩ : Half)] else []).count ⟨eid, d⟩ =
      if vid = e.startV ∧ eid = e.id ∧ d = false then 1 else 0 := by
    by_cases hs : vid = e.startV <;> by_cases hi : eid = e.id <;> cases d <;>
      simp [hs, hi, List.count_cons]
  have hC : (if vid = e.endV then [(⟨e.id, true⟩ : Half)] else []).count ⟨eid, d⟩ =
      if vid = e.endV ∧ eid = e.id ∧ d = true then 1 else 0 := by
    by_cases ht : vid = e.endV <;> by_cases hi : eid = e.id <;> cases d <;>
      simp [ht, hi, List.count_cons]
  have hD : (∃ e' ∈ g.edges ++ [e], e'.id = eid ∧ halfEnd e' d = vid) ↔
      ((∃ e' ∈ g.edges, e'.id = eid ∧ halfEnd e' d = vid) ∨
        (eid = e.id ∧ halfEnd e d = vid)) := by
    constructor
    · rintro ⟨e', he', hid', hend⟩
      rcases List.mem_append.1 he' with h1 | h1
      · exact Or.inl ⟨e', h1, hid', hend⟩
      · simp only [List.mem_singleton] at h1
        subst h1; exact Or.inr ⟨hid'.symm, hend⟩
    · rintro (⟨e', he', hid', hend⟩ | ⟨hid', hend⟩)
      · exact ⟨e', List.mem_append.2 (Or.inl he'), hid', hend⟩
      · exact ⟨e, List.mem_append.2 (Or.inr (List.mem_singleton.2 rfl)), hid'.symm, hend⟩
  rw [hB, hC, if_congr hD rfl rfl]
  by_cases hid : eid = e.id
  · subst hid
    have hold : ¬ ∃ e' ∈ g.edges, e'.id = e.id ∧ halfEnd e' d = vid := by
      rintro ⟨e', he', hid', -⟩
      exact hfresh e' he' hid'
    cases d
    · have hend : halfEnd e false = e.startV := by simp [halfEnd]
      by_cases hs : vid = e.startV
      · simp only [hs, hold, hend, and_true, true_and, if_true, eq_self_iff_true]
        simp
        intro x hx hxe
        exact absurd hxe (hfresh x hx)
      · have hs' : ¬ e.startV = vid := fun h => hs h.symm
        simp [hs, hs', hold, hend]
    · have hend : halfEnd e true = e.endV := by simp [halfEnd]
      by_cases ht : vid = e.endV
      · simp only [ht, hold, hend, and_true, true_and, if_true, eq_self_iff_true]
        simp
        intro x hx hxe
        exact absurd hxe (hfresh x hx)
      · have ht' : ¬ e.endV = vid := fun h => ht h.symm
        simp [ht, ht', hold, hend]
  · simp [hid]

theorem foldl_addEdge_inv (es : List IEdge) (g : KGraph)
    (hinv : halfIncidentInv g)
    (hfresh : ∀ a ∈ es, ∀ e' ∈ g.edges, e'.id ≠ a.id)
    (hnodup : (es.map IEdge.id).Nodup) :
    halfIncidentInv (es.foldl addEdge g) := by
  induction es generalizing g with
  | nil => exact hinv
  | cons a rest ih =>
    rw [List.foldl_cons]
    rw [List.map_cons, List.nodup_cons] at hnodup
    apply ih (addEdge g a)
    · exact addEdge_preserves_inv g a
        (fun e' he' => hfresh a (List.mem_cons_self a rest) e' he') hinv
    · intro x hx e' he'
      rw [addEdge_edges] at he'
      rcases List.mem_append.1 he' with h1 | h1
      · exact hfresh x (List.mem_cons_of_mem a hx) e' h1
      · simp only [List.mem_singleton] at h1
        subst h1
        intro hcontra
        exact hnodup.1 (hcontra ▸ List.mem_map_of_mem IEdge.id hx)
    · exact hnodup.2

/-- Counterexample to C4 as stated: connect one edge from vertex 0 to
vertex 1 via `addEdge`.  The forward half (which STARTS at vertex 0 per
the spec's orientation) does not appear in vertex 0's incident list at
all; that list holds exactly the reversed half, which starts at vertex 1
and ENDS at vertex 0 (part_003 lines 300-302 push `reversedHalf` on the
start vertex and `forwardHalf` on the end vertex, matching the line 752
comment that incident half-edges end at the vertex). -/
theorem addEdge_incident_start_cex :
    halfStart ⟨0, default, 0, 1⟩ true = 0 ∧
    halfStart ⟨0, default, 0, 1⟩ false = 1 ∧
    (addEdge ⟨[⟨0, default⟩, ⟨1, default⟩], [], fun _ => [], [], [], 2, 0⟩
        ⟨0, default, 0, 1⟩).incident 0 = [⟨0, false⟩] ∧
    ((addEdge ⟨[⟨0, default⟩, ⟨1, default⟩], [], fun _ => [], [], [], 2, 0⟩
        ⟨0, default, 0, 1⟩).incident 0).count ⟨0, true⟩ = 0 := by
  decide

/-- Claim C4 (amended): at every point of a sequence of `addEdge` calls
with fresh distinct edge ids, every vertex's `incidentHalfEdges` list
contains exactly once every half-edge whose END is that vertex, and no
other half-edges (`halfIncidentInv`). -/
theorem addEdge_incident_end_inv (g0 : KGraph) (es : List IEdge)
    (hinv0 : halfIncidentInv g0)
    (hfresh : ∀ a ∈ es, ∀ e' ∈ g0.edges, e'.id ≠ a.id)
    (hnodup : (es.map IEdge.id).Nodup) :
    ∀ l1 l2 : List IEdge, es = l1 ++ l2 → halfIncidentInv (l1.foldl addEdge g0) := by
  intro l1 l2 hsplit
  apply foldl_addEdge_inv l1 g0 hinv0
  · intro a ha e' he'
    exact hfresh a (hsplit ▸ List.mem_append.2 (Or.inl ha)) e' he'
  · have : (l1.map IEdge.id).Sublist (es.map IEdge.id) := by
      rw [hsplit, List.map_append]
      exact List.sublist_append_left _ _
    exact hnodup.sublist this

/-- Witness for C4 at a two-edge graph. -/
theorem addEdge_incident_end_inv_witness :
    halfIncidentInv
      (List.foldl addEdge ⟨[⟨0, default⟩, ⟨1, default⟩], [], fun _ => [], [], [], 2, 0⟩
        [⟨0, default, 0, 1⟩, ⟨1, default, 1, 0⟩]) :=
  addEdge_incident_end_inv ⟨[⟨0, default⟩, ⟨1, default⟩], [], fun _ => [], [], [], 2, 0⟩
    [⟨0, default, 0, 1⟩, ⟨1, default, 1, 0⟩]
    (by intro vid eid d; simp)
    (by intro a ha e' he'; simp at he')
    (by decide)
    [⟨0, default, 0, 1⟩, ⟨1, default, 1, 0⟩] [] rfl

/-! ### Claim C5 -/

theorem scanInterWith_accept (intersect : Seg → Seg → List Inter) (a : IEdge) :
    ∀ (l : List IEdge) (b : IEdge) (it : Inter),
      scanInterWith intersect a l = some (b, it) → acceptInter it = true := by
  intro l
  induction l with
  | nil => intro b it h; simp [scanInterWith] at h
  | cons x rest ih =>
    intro b it h
    rw [scanInterWith] at h
    cases hh : ((intersect a.seg x.seg).filter acceptInter).head? with
    | none => rw [hh] at h; exact ih b it h
    | some p =>
      rw [hh] at h
      have hp : x = b ∧ p = it := by simpa using h
      cases hl : (intersect a.seg x.seg).filter acceptInter with
      | nil => rw [hl] at hh; simp at hh
      | cons y t =>
        rw [hl] at hh
        simp only [List.head?_cons, Option.some_inj] at hh
        have hy : y ∈ (intersect a.seg x.seg).filter acceptInter := by
          rw [hl]; exact List.mem_cons_self y t
        have := List.of_mem_filter hy
        rw [hh, hp.2] at this
        exact this

theorem scanInterPairs_accept (intersect : Seg → Seg → List Inter) :
    ∀ (es : List IEdge) (ae be : IEdge) (it : Inter),
      scanInterPairs intersect es = some (ae, be, it) → acceptInter it = true := by
  intro es
  induction es with
  | nil => intro ae be it h; simp [scanInterPairs] at h
  | cons a rest ih =>
    intro ae be it h
    rw [scanInterPairs] at h
    cases hh : scanInterWith intersect a rest with
    | none => rw [hh] at h; exact ih ae be it h
    | some p =>
      rw [hh] at h
      have hp : (a, p.1, p.2) = (ae, be, it) := by simpa using h
      have hit : p.2 = it := by
        have := congrArg (fun q => q.2.2) hp
        simpa using this
      exact hit ▸ scanInterWith_accept intersect a rest p.1 p.2 (by simpa using hh)

/-- An internal parameter is farther than `vertexEpsilon` from both
endpoint parameters 0 and 1. -/
theorem tInternal_abs (t : ℚ) (h : tInternal t = true) :
    vertexEpsilon < |t| ∧ vertexEpsilon < |t - 1| := by
  rw [tInternal, Bool.and_eq_true, decide_eq_true_iff, decide_eq_true_iff] at h
  obtain ⟨h1, h2⟩ := h
  have heps : (0 : ℚ) < vertexEpsilon := by norm_num [vertexEpsilon]
  constructor
  · rwa [abs_of_pos (lt_trans heps h1)]
  · rw [abs_sub_comm, abs_of_pos (by linarith)]
    linarith

theorem splitEdge_verts (g : KGraph) (e : IEdge) (t : ℚ) (vid : ℕ) :
    (splitEdge g e t vid).verts = g.verts := rfl

theorem splitEdge_freshV (g : KGraph) (e : IEdge) (t : ℚ) (vid : ℕ) :
    (splitEdge g e t vid).freshV = g.freshV := rfl

theorem splitEdge_freshE (g : KGraph) (e : IEdge) (t : ℚ) (vid : ℕ) :
    (splitEdge g e t vid).freshE = g.freshE + 2 := rfl

theorem splitEdge_edges (g : KGraph) (e : IEdge) (t : ℚ) (vid : ℕ) :
    (splitEdge g e t vid).edges =
      (g.edges.erase e) ++ [⟨g.freshE, .subL e.seg t, e.startV, vid⟩,
        ⟨g.freshE + 1, .subR e.seg t, vid, e.endV⟩] := by
  simp [splitEdge, removeEdge, addEdge, replaceEdgeInLoops]

/-- Claim C5: (a) `eliminateIntersection` acts on an intersection picked
by the pair scan only when at least one of `aT`, `bT` is farther than
`1e-5` from both endpoint parameters (both-near intersections are pure
touches and are filtered out); (b) the resulting `simpleSplit` splits
edge `a` at `aT` exactly when `aT` is internal — otherwise `a` survives
and the shared vertex is `a`'s nearer endpoint chosen by `aT < 0.5` —
likewise for `b`, both subdivisions hang off one single vertex id, and a
new vertex (at the intersection point) is created exactly when both
parameters are internal. -/
theorem eliminateIntersection_simpleSplit_spec :
    (∀ (intersect : Seg → Seg → List Inter) (es : List IEdge) (ae be : IEdge) (it : Inter),
      scanInterPairs intersect es = some (ae, be, it) →
      (vertexEpsilon < |it.aT| ∧ vertexEpsilon < |it.aT - 1|) ∨
      (vertexEpsilon < |it.bT| ∧ vertexEpsilon < |it.bT - 1|)) ∧
    (∀ (g : KGraph) (ae be : IEdge) (aT bT : ℚ) (pt : Pt),
      ae ∈ g.edges → be ∈ g.edges → ae ≠ be → g.edges.Nodup →
      (∀ e ∈ g.edges, e.id < g.freshE) →
      (simpleSplit g ae be aT bT pt).verts =
          g.verts ++ (if tInternal aT && tInternal bT then [(⟨g.freshV, pt⟩ : Vtx)] else []) ∧
      (tInternal aT = false → ae ∈ (simpleSplit g ae be aT bT pt).edges) ∧
      (tInternal bT = false → be ∈ (simpleSplit g ae be aT bT pt).edges) ∧
      (tInternal aT = true →
        ae ∉ (simpleSplit g ae be aT bT pt).edges ∧
        ∃ i j : ℕ, i ≠ j ∧
          (⟨i, .subL ae.seg aT, ae.startV, simpleSplitVertexId g ae be aT bT⟩ : IEdge) ∈
            (simpleSplit g ae be aT bT pt).edges ∧
          (⟨j, .subR ae.seg aT, simpleSplitVertexId g ae be aT bT, ae.endV⟩ : IEdge) ∈
            (simpleSplit g ae be aT bT pt).edges) ∧
      (tInternal bT = true →
        be ∉ (simpleSplit g ae be aT bT pt).edges ∧
        ∃ i j : ℕ, i ≠ j ∧
          (⟨i, .subL be.seg bT, be.startV, simpleSplitVertexId g ae be aT bT⟩ : IEdge) ∈
            (simpleSplit g ae be aT bT pt).edges ∧
          (⟨j, .subR be.seg bT, simpleSplitVertexId g ae be aT bT, be.endV⟩ : IEdge) ∈
            (simpleSplit g ae be aT bT pt).edges) ∧
      (tInternal aT = false →
        simpleSplitVertexId g ae be aT bT = if aT < 1/2 then ae.startV else ae.endV) ∧
      (tInternal aT = true → tInternal bT = false →
        simpleSplitVertexId g ae be aT bT = if bT < 1/2 then be.startV else be.endV) ∧
      (tInternal aT = true → tInternal bT = true →
        simpleSplitVertexId g ae be aT bT = g.freshV)) := by
  constructor
  · intro intersect es ae be it h
    have hacc := scanInterPairs_accept intersect es ae be it h
    rw [acceptInter, Bool.or_eq_true] at hacc
    rcases hacc with h1 | h1
    · exact Or.inl (tInternal_abs it.aT h1)
    · exact Or.inr (tInternal_abs it.bT h1)
  · intro g ae be aT bT pt hma hmb hne hnd hlt
    set v := simpleSplitVertexId g ae be aT bT with hv
    cases haI : tInternal aT <;> cases hbI : tInternal bT
    · -- neither internal: nothing happens
      have hR : simpleSplit g ae be aT bT pt = g := by
        simp [simpleSplit, haI, hbI]
      rw [hR]
      refine ⟨by simp [haI, hbI], fun _ => hma, fun _ => hmb, ?_, ?_, ?_, ?_, ?_⟩
      · exact fun hcontra => Bool.noConfusion hcontra
      · exact fun hcontra => Bool.noConfusion hcontra
      · intro _; simp [hv, simpleSplitVertexId, haI]
      · exact fun hcontra => Bool.noConfusion hcontra
      · exact fun hcontra => Bool.noConfusion hcontra
    · -- only bT internal
      have hR : simpleSplit g ae be aT bT pt = splitEdge g be bT v := by
        simp [simpleSplit, haI, hbI, hv]
      rw [hR, splitEdge_edges]
      have hbe1 : be ∉ g.edges.erase be := fun hc => ((hnd.mem_erase_iff).1 hc).1 rfl
      refine ⟨by simp [splitEdge_verts, haI, hbI], ?_, ?_, ?_, ?_, ?_, ?_, ?_⟩
      · intro _
        exact List.mem_append.2 (Or.inl ((List.mem_erase_of_ne hne).2 hma))
      · exact fun hcontra => Bool.noConfusion hcontra
      · exact fun hcontra => Bool.noConfusion hcontra
      · intro _
        refine ⟨?_, g.freshE, g.freshE + 1, by omega, ?_, ?_⟩
        · intro hc
          rcases List.mem_append.1 hc with hc | hc
          · exact hbe1 hc
          · have hid := hlt be hmb
            simp only [List.mem_cons, List.mem_singleton] at hc
            rcases hc with hc | hc | hc
            · rw [hc] at hid; simp at hid
            · rw [hc] at hid; simp at hid
            · cases hc
        · exact List.mem_append.2 (Or.inr (by simp))
        · exact List.mem_append.2 (Or.inr (by simp))
      · intro _; simp [hv, simpleSplitVertexId, haI]
      · exact fun hcontra => Bool.noConfusion hcontra
      · exact fun hcontra => Bool.noConfusion hcontra
    · -- only aT internal
      have hR : simpleSplit g ae be aT bT pt = splitEdge g ae aT v := by
        simp [simpleSplit, haI, hbI, hv]
      rw [hR, splitEdge_edges]
      have hae1 : ae ∉ g.edges.erase ae := fun hc => ((hnd.mem_erase_iff).1 hc).1 rfl
      refine ⟨by simp [splitEdge_verts, haI, hbI], ?_, ?_, ?_, ?_, ?_, ?_, ?_⟩
      · exact fun hcontra => Bool.noConfusion hcontra
      · intro _
        exact List.mem_append.2 (Or.inl ((List.mem_erase_of_ne (Ne.symm hne)).2 hmb))
      · intro _
        refine ⟨?_, g.freshE, g.freshE + 1, by omega, ?_, ?_⟩
        · intro hc
          rcases List.mem_append.1 hc with hc | hc
          · exact hae1 hc
          · have hid := hlt ae hma
            simp only [List.mem_cons, List.mem_singleton] at hc
            rcases hc with hc | hc | hc
            · rw [hc] at hid; simp at hid
            · rw [hc] at hid; simp at hid
            · cases hc
        · exact List.mem_append.2 (Or.inr (by simp))
        · exact List.mem_append.2 (Or.inr (by simp))
      · exact fun hcontra => Bool.noConfusion hcontra
      · exact fun hcontra => Bool.noConfusion hcontra
      · intro _ _; simp [hv, simpleSplitVertexId, haI, hbI]
      · exact fun _ hcontra => Bool.noConfusion hcontra
    · -- both internal
      have hgv : (if tInternal aT && tInternal bT then
          { g with verts := g.verts ++ [(⟨g.freshV, pt⟩ : Vtx)], freshV := g.freshV + 1 }
          else g) =
          { g with verts := g.verts ++ [(⟨g.freshV, pt⟩ : Vtx)], freshV := g.freshV + 1 } := by
        simp [haI, hbI]
      have hR : simpleSplit g ae be aT bT pt =
          splitEdge (splitEdge
            { g with verts := g.verts ++ [(⟨g.freshV, pt⟩ : Vtx)], freshV := g.freshV + 1 }
            ae aT v) be bT v := by
        simp [simpleSplit, haI, hbI, hv]
      set A1 : IEdge := ⟨g.freshE, .subL ae.seg aT, ae.startV, v⟩ with hA1
      set A2 : IEdge := ⟨g.freshE + 1, .subR ae.seg aT, v, ae.endV⟩ with hA2
      set B1 : IEdge := ⟨g.freshE + 2, .subL be.seg bT, be.startV, v⟩ with hB1
      set B2 : IEdge := ⟨g.freshE + 3, .subR be.seg bT, v, be.endV⟩ with hB2
      have hmid : (splitEdge
          { g with verts := g.verts ++ [(⟨g.freshV, pt⟩ : Vtx)], freshV := g.freshV + 1 }
          ae aT v).edges = (g.edges.erase ae) ++ [A1, A2] := by
        rw [splitEdge_edges]
      have hRe : (simpleSplit g ae be aT bT pt).edges =
          (((g.edges.erase ae) ++ [A1, A2]).erase be) ++ [B1, B2] := by
        rw [hR, splitEdge_edges, hmid, splitEdge_freshE]
      have hRv : (simpleSplit g ae be aT bT pt).verts =
          g.verts ++ [(⟨g.freshV, pt⟩ : Vtx)] := by
        rw [hR, splitEdge_verts, splitEdge_verts]
      have hae1 : ae ∉ g.edges.erase ae := fun hc => ((hnd.mem_erase_iff).1 hc).1 rfl
      have haeA : ae ∉ ([A1, A2] : List IEdge) := by
        have hid := hlt ae hma
        intro hc
        simp only [List.mem_cons, List.mem_singleton] at hc
        rcases hc with hc | hc | hc
        · rw [hc, hA1] at hid; simp at hid
        · rw [hc, hA2] at hid; simp at hid
        · cases hc
      have hedges1nd : ((g.edges.erase ae) ++ [A1, A2]).Nodup := by
        refine List.Nodup.append (hnd.erase ae) ?_ ?_
        · simp [hA1, hA2]
        · intro x hx
          have hxg : x ∈ g.edges := List.mem_of_mem_erase hx
          have hid := hlt x hxg
          intro hc
          simp only [List.mem_cons, List.mem_singleton] at hc
          rcases hc with hc | hc | hc
          · rw [hc, hA1] at hid; simp at hid
          · rw [hc, hA2] at hid; simp at hid
          · cases hc
      have hbe1 : be ∉ ((g.edges.erase ae) ++ [A1, A2]).erase be :=
        fun hc => ((hedges1nd.mem_erase_iff).1 hc).1 rfl
      have hbeB : be ∉ ([B1, B2] : List IEdge) := by
        have hid := hlt be hmb
        intro hc
        simp only [List.mem_cons, List.mem_singleton] at hc
        rcases hc with hc | hc | hc
        · rw [hc, hB1] at hid; simp at hid
        · rw [hc, hB2] at hid; simp at hid
        · cases hc
      refine ⟨by rw [hRv]; simp [haI, hbI], ?_, ?_, ?_, ?_, ?_, ?_, ?_⟩
      · exact fun hcontra => Bool.noConfusion hcontra
      · exact fun hcontra => Bool.noConfusion hcontra
      · intro _
        refine ⟨?_, g.freshE, g.freshE + 1, by omega, ?_, ?_⟩
        · rw [hRe]
          intro hc
          rcases List.mem_append.1 hc with hc | hc
          · have := List.mem_of_mem_erase hc
            rcases List.mem_append.1 this with hc2 | hc2
            · exact hae1 hc2
            · exact haeA hc2
          · have hid := hlt ae hma
            simp only [List.mem_cons, List.mem_singleton] at hc
            rcases hc with hc | hc | hc
            · rw [hc, hB1] at hid; simp at hid
            · rw [hc, hB2] at hid; simp at hid
            · cases hc
        · rw [hRe]
          refine List.mem_append.2 (Or.inl ?_)
          refine (List.mem_erase_of_ne ?_).2 (List.mem_append.2 (Or.inr (by simp)))
          intro hc
          have hid := hlt be hmb
          rw [← hc] at hid; simp at hid
        · rw [hRe]
          refine List.mem_append.2 (Or.inl ?_)
          refine (List.mem_erase_of_ne ?_).2 (List.mem_append.2 (Or.inr (by simp)))
          intro hc
          have hid := hlt be hmb
          rw [← hc] at hid; simp at hid
      · intro _
        refine ⟨?_, g.freshE + 2, g.freshE + 3, by omega, ?_, ?_⟩
        · rw [hRe]
          intro hc
          rcases List.mem_append.1 hc with hc | hc
          · exact hbe1 hc
          · exact hbeB hc
        · rw [hRe]
          exact List.mem_append.2 (Or.inr (by simp))
        · rw [hRe]
          exact List.mem_append.2 (Or.inr (by simp))
      · exact fun hcontra => Bool.noConfusion hcontra
      · exact fun _ hcontra => Bool.noConfusion hcontra
      · intro _ _; simp [hv, simpleSplitVertexId, haI, hbI]

/-- Witness for C5: a two-edge graph and an intersection with both
parameters internal at 1/2. -/
theorem eliminateIntersection_simpleSplit_spec_witness :
    ((vertexEpsilon < |Inter.aT ⟨1/2, 1/2, default⟩| ∧
        vertexEpsilon < |Inter.aT ⟨1/2, 1/2, default⟩ - 1|) ∨
      (vertexEpsilon < |Inter.bT ⟨1/2, 1/2, default⟩| ∧
        vertexEpsilon < |Inter.bT ⟨1/2, 1/2, default⟩ - 1|)) ∧
    (let kg : KGraph := ⟨[⟨0, default⟩, ⟨1, default⟩, ⟨2, default⟩, ⟨3, default⟩],
        [⟨0, .raw 0 default default, 0, 1⟩, ⟨1, .raw 1 default default, 2, 3⟩],
        fun _ => [], [], [], 4, 2⟩
     let e0 : IEdge := ⟨0, .raw 0 default default, 0, 1⟩
     let e1 : IEdge := ⟨1, .raw 1 default default, 2, 3⟩
     (simpleSplit kg e0 e1 (1/2) (1/2) default).verts =
        kg.verts ++ (if tInternal (1/2) && tInternal (1/2)
          then [(⟨kg.freshV, default⟩ : Vtx)] else []) ∧
     (tInternal (1/2 : ℚ) = false →
        e0 ∈ (simpleSplit kg e0 e1 (1/2) (1/2) default).edges) ∧
     (tInternal (1/2 : ℚ) = false →
        e1 ∈ (simpleSplit kg e0 e1 (1/2) (1/2) default).edges) ∧
     (tInternal (1/2 : ℚ) = true →
        e0 ∉ (simpleSplit kg e0 e1 (1/2) (1/2) default).edges ∧
        ∃ i j : ℕ, i ≠ j ∧
          (⟨i, .subL e0.seg (1/2), e0.startV, simpleSplitVertexId kg e0 e1 (1/2) (1/2)⟩ : IEdge) ∈
            (simpleSplit kg e0 e1 (1/2) (1/2) default).edges ∧
          (⟨j, .subR e0.seg (1/2), simpleSplitVertexId kg e0 e1 (1/2) (1/2), e0.endV⟩ : IEdge) ∈
            (simpleSplit kg e0 e1 (1/2) (1/2) default).edges) ∧
     (tInternal (1/2 : ℚ) = true →
        e1 ∉ (simpleSplit kg e0 e1 (1/2) (1/2) default).edges ∧
        ∃ i j : ℕ, i ≠ j ∧
          (⟨i, .subL e1.seg (1/2), e1.startV, simpleSplitVertexId kg e0 e1 (1/2) (1/2)⟩ : IEdge) ∈
            (simpleSplit kg e0 e1 (1/2) (1/2) default).edges ∧
          (⟨j, .subR e1.seg (1/2), simpleSplitVertexId kg e0 e1 (1/2) (1/2), e1.endV⟩ : IEdge) ∈
            (simpleSplit kg e0 e1 (1/2) (1/2) default).edges) ∧
     (tInternal (1/2 : ℚ) = false →
        simpleSplitVertexId kg e0 e1 (1/2) (1/2) =
          if (1/2 : ℚ) < 1/2 then e0.startV else e0.endV) ∧
     (tInternal (1/2 : ℚ) = true → tInternal (1/2 : ℚ) = false →
        simpleSplitVertexId kg e0 e1 (1/2) (1/2) =
          if (1/2 : ℚ) < 1/2 then e1.startV else e1.endV) ∧
     (tInternal (1/2 : ℚ) = true → tInternal (1/2 : ℚ) = true →
        simpleSplitVertexId kg e0 e1 (1/2) (1/2) = kg.freshV)) :=
  ⟨eliminateIntersection_simpleSplit_spec.1 (fun _ _ => [⟨1/2, 1/2, default⟩])
      [⟨0, .raw 0 default default, 0, 1⟩, ⟨1, .raw 1 default default, 2, 3⟩]
      ⟨0, .raw 0 default default, 0, 1⟩ ⟨1, .raw 1 default default, 2, 3⟩
      ⟨1/2, 1/2, default⟩
      (by norm_num [scanInterPairs, scanInterWith, acceptInter, tInternal, vertexEpsilon]),
   eliminateIntersection_simpleSplit_spec.2
      ⟨[⟨0, default⟩, ⟨1, default⟩, ⟨2, default⟩, ⟨3, default⟩],
        [⟨0, .raw 0 default default, 0, 1⟩, ⟨1, .raw 1 default default, 2, 3⟩],
        fun _ => [], [], [], 4, 2⟩
      ⟨0, .raw 0 default default, 0, 1⟩ ⟨1, .raw 1 default default, 2, 3⟩
      (1/2) (1/2) default (by decide) (by decide) (by decide) (by decide) (by decide)⟩

/-! ### Claim C6 -/

theorem scanOverlapWith_sig (getOv : Seg → Seg → List Overlap) (a : IEdge) :
    ∀ (l : List IEdge) (b : IEdge) (ov : Overlap),
      scanOverlapWith getOv a l = some (b, ov) → significantOverlap ov = true := by
  intro l
  induction l with
  | nil => intro b ov h; simp [scanOverlapWith] at h
  | cons x rest ih =>
    intro b ov h
    rw [scanOverlapWith] at h
    cases hh : (getOv a.seg x.seg).find? significantOverlap with
    | none => rw [hh] at h; exact ih b ov h
    | some p =>
      rw [hh] at h
      have hp : x = b ∧ p = ov := by simpa using h
      exact hp.2 ▸ List.find?_some hh

theorem scanOverlapPairs_sig (getOv : Seg → Seg → List Overlap) :
    ∀ (es : List IEdge) (ae be : IEdge) (ov : Overlap),
      scanOverlapPairs getOv es = some (ae, be, ov) → significantOverlap ov = true := by
  intro es
  induction es with
  | nil => intro ae be ov h; simp [scanOverlapPairs] at h
  | cons a rest ih =>
    intro ae be ov h
    rw [scanOverlapPairs] at h
    cases hh : scanOverlapWith getOv a rest with
    | none => rw [hh] at h; exact ih ae be ov h
    | some p =>
      rw [hh] at h
      have hp : (a, p.1, p.2) = (ae, be, ov) := by simpa using h
      have hov : p.2 = ov := by
        have := congrArg (fun q => q.2.2) hp
        simpa using this
      exact hov ▸ scanOverlapWith_sig getOv a rest p.1 p.2 (by simpa using hh)

theorem splitOverlapNewEdges_id_ge (g : KGraph) (ae be : IEdge) (ov : Overlap) :
    ∀ x ∈ splitOverlapNewEdges g ae be ov, g.freshE ≤ x.id := by
  intro x hx
  simp only [splitOverlapNewEdges, splitOverlapMiddleEdge, List.mem_append,
    List.mem_singleton] at hx
  rcases hx with ((((hx | hx) | hx) | hx) | hx)
  · rw [hx]
  all_goals
    split_ifs at hx <;> simp at hx <;> rw [hx] <;> simp

/-- Claim C6: (a) `eliminateOverlap`'s pair scan acts only on overlaps
with both `|t1 - t0| > 1e-5` and `|qt1 - qt0| > 1e-5`; (b) before
subdividing, `splitOverlap` snaps each of the four overlap parameters
lying within `1e-5` of 0 or 1 to exactly 0 or 1 (given the `getOverlaps`
contract `0 ≤ t0 ≤ t1 ≤ 1`, `0 ≤ qt0 ≤ qt1 ≤ 1`, a parameter near the
far endpoint is impossible for a significant overlap); and (c) the two
removed edges are replaced by at most five new edges in which the
coincident middle piece is one single edge shared by both replacement
half-edge sequences. -/
theorem eliminateOverlap_splitOverlap_spec :
    (∀ (getOv : Seg → Seg → List Overlap) (es : List IEdge) (ae be : IEdge) (ov : Overlap),
      scanOverlapPairs getOv es = some (ae, be, ov) →
      vertexEpsilon < |ov.t1 - ov.t0| ∧ vertexEpsilon < |ov.qt1 - ov.qt0|) ∧
    (∀ (pos : Seg → ℚ → Pt) (g : KGraph) (ae be : IEdge) (ov : Overlap),
      0 ≤ ov.t0 → ov.t0 ≤ ov.t1 → ov.t1 ≤ 1 →
      0 ≤ ov.qt0 → ov.qt0 ≤ ov.qt1 → ov.qt1 ≤ 1 →
      significantOverlap ov = true →
      ae ∈ g.edges → be ∈ g.edges → ae ≠ be → g.edges.Nodup →
      (∀ e ∈ g.edges, e.id < g.freshE) →
      ((|ov.t0| < vertexEpsilon → snap0 ov.t0 = 0) ∧
       (|ov.t0 - 1| < vertexEpsilon → snap0 ov.t0 = 1) ∧
       (|ov.t1| < vertexEpsilon → snap1 ov.t1 = 0) ∧
       (|ov.t1 - 1| < vertexEpsilon → snap1 ov.t1 = 1) ∧
       (|ov.qt0| < vertexEpsilon → snap0 ov.qt0 = 0) ∧
       (|ov.qt0 - 1| < vertexEpsilon → snap0 ov.qt0 = 1) ∧
       (|ov.qt1| < vertexEpsilon → snap1 ov.qt1 = 0) ∧
       (|ov.qt1 - 1| < vertexEpsilon → snap1 ov.qt1 = 1)) ∧
      (splitOverlap pos g ae be ov).edges =
        ((g.edges.erase ae).erase be) ++ splitOverlapNewEdges g ae be ov ∧
      (splitOverlapNewEdges g ae be ov).length ≤ 5 ∧
      splitOverlapMiddleEdge g ae be ov ∈ splitOverlapNewEdges g ae be ov ∧
      (⟨(splitOverlapMiddleEdge g ae be ov).id, true⟩ : Half) ∈ splitOverlapAHalves g ov ∧
      (⟨(splitOverlapMiddleEdge g ae be ov).id, decide (0 < ov.a)⟩ : Half) ∈
        splitOverlapBHalves g ov ∧
      ae ∉ (splitOverlap pos g ae be ov).edges ∧
      be ∉ (splitOverlap pos g ae be ov).edges) := by
  constructor
  · intro getOv es ae be ov h
    have hsig := scanOverlapPairs_sig getOv es ae be ov h
    rw [significantOverlap, Bool.and_eq_true, decide_eq_true_iff, decide_eq_true_iff] at hsig
    exact hsig
  · intro pos g ae be ov h0 h01 h1 hq0 hq01 hq1 hsig hma hmb hne hnd hlt
    rw [significantOverlap, Bool.and_eq_true, decide_eq_true_iff, decide_eq_true_iff] at hsig
    obtain ⟨hs1, hs2⟩ := hsig
    have heps : (0 : ℚ) < vertexEpsilon := by norm_num [vertexEpsilon]
    have ht : vertexEpsilon < ov.t1 - ov.t0 := by
      rwa [abs_of_nonneg (by linarith)] at hs1
    have hqt : vertexEpsilon < ov.qt1 - ov.qt0 := by
      rwa [abs_of_nonneg (by linarith)] at hs2
    have hedges : (splitOverlap pos g ae be ov).edges =
        ((g.edges.erase ae).erase be) ++ splitOverlapNewEdges g ae be ov := by
      simp [splitOverlap, removeEdge, foldl_addEdge_edges, replaceEdgeInLoops]
    have hbound := splitOverlapNewEdges_id_ge g ae be ov
    refine ⟨⟨?_, ?_, ?_, ?_, ?_, ?_, ?_, ?_⟩, hedges, ?_, ?_, ?_, ?_, ?_, ?_⟩
    · intro h
      have hlt' : ov.t0 < vertexEpsilon := lt_of_abs_lt h
      simp only [snap0]
      rw [if_pos hlt']
    · intro h
      exfalso
      have h' := abs_lt.1 h
      linarith [h'.1]
    · intro h
      exfalso
      have h' : ov.t1 < vertexEpsilon := lt_of_abs_lt h
      linarith
    · intro h
      have h' := abs_lt.1 h
      simp only [snap1]
      rw [if_pos (by linarith [h'.1])]
    · intro h
      have hlt' : ov.qt0 < vertexEpsilon := lt_of_abs_lt h
      simp only [snap0]
      rw [if_pos hlt']
    · intro h
      exfalso
      have h' := abs_lt.1 h
      linarith [h'.1]
    · intro h
      exfalso
      have h' : ov.qt1 < vertexEpsilon := lt_of_abs_lt h
      linarith
    · intro h
      have h' := abs_lt.1 h
      simp only [snap1]
      rw [if_pos (by linarith [h'.1])]
    · simp only [splitOverlapNewEdges, List.length_append]
      split_ifs <;> simp
    · simp [splitOverlapNewEdges]
    · simp [splitOverlapAHalves, splitOverlapMiddleEdge]
    · simp [splitOverlapBHalves, splitOverlapMiddleEdge]
    · rw [hedges]
      intro hc
      rcases List.mem_append.1 hc with hc | hc
      · have := List.mem_of_mem_erase hc
        exact ((hnd.mem_erase_iff).1 this).1 rfl
      · have hb := hbound ae hc
        have hl := hlt ae hma
        omega
    · rw [hedges]
      intro hc
      rcases List.mem_append.1 hc with hc | hc
      · exact (((hnd.erase ae).mem_erase_iff).1 hc).1 rfl
      · have hb := hbound be hc
        have hl := hlt be hmb
        omega

/-- Witness for C6: a two-edge graph and a full-range overlap record. -/
theorem eliminateOverlap_splitOverlap_spec_witness :
    (vertexEpsilon < |Overlap.t1 ⟨0, 1, 0, 1, 1⟩ - Overlap.t0 ⟨0, 1, 0, 1, 1⟩| ∧
      vertexEpsilon < |Overlap.qt1 ⟨0, 1, 0, 1, 1⟩ - Overlap.qt0 ⟨0, 1, 0, 1, 1⟩|) ∧
    (let kg : KGraph := ⟨[⟨0, default⟩, ⟨1, default⟩, ⟨2, default⟩, ⟨3, default⟩],
        [⟨0, .raw 0 default default, 0, 1⟩, ⟨1, .raw 1 default default, 2, 3⟩],
        fun _ => [], [], [], 4, 2⟩
     let e0 : IEdge := ⟨0, .raw 0 default default, 0, 1⟩
     let e1 : IEdge := ⟨1, .raw 1 default default, 2, 3⟩
     let ov : Overlap := ⟨0, 1, 0, 1, 1⟩
     let p0 : Seg → ℚ → Pt := fun _ _ => default
     ((|ov.t0| < vertexEpsilon → snap0 ov.t0 = 0) ∧
      (|ov.t0 - 1| < vertexEpsilon → snap0 ov.t0 = 1) ∧
      (|ov.t1| < vertexEpsilon → snap1 ov.t1 = 0) ∧
      (|ov.t1 - 1| < vertexEpsilon → snap1 ov.t1 = 1) ∧
      (|ov.qt0| < vertexEpsilon → snap0 ov.qt0 = 0) ∧
      (|ov.qt0 - 1| < vertexEpsilon → snap0 ov.qt0 = 1) ∧
      (|ov.qt1| < vertexEpsilon → snap1 ov.qt1 = 0) ∧
      (|ov.qt1 - 1| < vertexEpsilon → snap1 ov.qt1 = 1)) ∧
     (splitOverlap p0 kg e0 e1 ov).edges =
        ((kg.edges.erase e0).erase e1) ++ splitOverlapNewEdges kg e0 e1 ov ∧
     (splitOverlapNewEdges kg e0 e1 ov).length ≤ 5 ∧
     splitOverlapMiddleEdge kg e0 e1 ov ∈ splitOverlapNewEdges kg e0 e1 ov ∧
     (⟨(splitOverlapMiddleEdge kg e0 e1 ov).id, true⟩ : Half) ∈ splitOverlapAHalves kg ov ∧
     (⟨(splitOverlapMiddleEdge kg e0 e1 ov).id, decide (0 < ov.a)⟩ : Half) ∈
        splitOverlapBHalves kg ov ∧
     e0 ∉ (splitOverlap p0 kg e0 e1 ov).edges ∧
     e1 ∉ (splitOverlap p0 kg e0 e1 ov).edges) :=
  ⟨eliminateOverlap_splitOverlap_spec.1 (fun _ _ => [⟨0, 1, 0, 1, 1⟩])
      [⟨0, .raw 0 default default, 0, 1⟩, ⟨1, .raw 1 default default, 2, 3⟩]
      ⟨0, .raw 0 default default, 0, 1⟩ ⟨1, .raw 1 default default, 2, 3⟩
      ⟨0, 1, 0, 1, 1⟩
      (by norm_num [scanOverlapPairs, scanOverlapWith, significantOverlap, vertexEpsilon]),
   eliminateOverlap_splitOverlap_spec.2 (fun _ _ => default)
      ⟨[⟨0, default⟩, ⟨1, default⟩, ⟨2, default⟩, ⟨3, default⟩],
        [⟨0, .raw 0 default default, 0, 1⟩, ⟨1, .raw 1 default default, 2, 3⟩],
        fun _ => [], [], [], 4, 2⟩
      ⟨0, .raw 0 default default, 0, 1⟩ ⟨1, .raw 1 default default, 2, 3⟩
      ⟨0, 1, 0, 1, 1⟩
      (by norm_num) (by norm_num) (by norm_num) (by norm_num) (by norm_num) (by norm_num)
      (by norm_num [significantOverlap, vertexEpsilon])
      (by decide) (by decide) (by decide) (by decide) (by decide)⟩

/-! ### Claim C8 -/

theorem distLt_true_finite (p q : Pt) (s : ℚ) (h : p.distLt q s = true) :
    p.finite = true ∧ q.finite = true := by
  obtain ⟨px, py⟩ := p
  obtain ⟨qx, qy⟩ := q
  cases px <;> cases py <;> cases qx <;> cases qy <;>
    simp_all [Pt.distLt, Pt.finite, JsNum.finite]

theorem avg_finite (p q : Pt) (hp : p.finite = true) (hq : q.finite = true) :
    (p.avg q).finite = true := by
  obtain ⟨px, py⟩ := p
  obtain ⟨qx, qy⟩ := q
  cases px <;> cases py <;> cases qx <;> cases qy <;>
    simp_all [Pt.avg, Pt.finite, JsNum.finite, JsNum.add, JsNum.half]

theorem distLt_false_ge (p q : Pt) (s : ℚ) (hp : p.finite = true) (hq : q.finite = true)
    (h : p.distLt q s = false) :
    s ≤ (p.fx - q.fx) ^ 2 + (p.fy - q.fy) ^ 2 := by
  obtain ⟨px, py⟩ := p
  obtain ⟨qx, qy⟩ := q
  cases px <;> cases py <;> cases qx <;> cases qy <;>
    simp_all [Pt.distLt, Pt.finite, JsNum.finite, Pt.fx, Pt.fy]

theorem findClosePair_mem : ∀ (l : List Vtx) (a b : Vtx),
    findClosePair l = some (a, b) → a ∈ l ∧ b ∈ l.erase a := by
  intro l
  induction l with
  | nil => intro a b h; simp [findClosePair] at h
  | cons x rest ih =>
    intro a b h
    rw [findClosePair] at h
    cases hh : rest.find? (fun v => x.pt.distLt v.pt vertexEpsilonSq) with
    | some y =>
      rw [hh] at h
      have hxy : x = a ∧ y = b := by simpa using h
      obtain ⟨rfl, rfl⟩ := hxy
      constructor
      · exact List.mem_cons_self x rest
      · rw [List.erase_cons_head]
        exact List.mem_of_find?_eq_some hh
    | none =>
      rw [hh] at h
      obtain ⟨ha, hb⟩ := ih a b h
      refine ⟨List.mem_cons_of_mem x ha, ?_⟩
      by_cases hxa : x = a
      · rw [List.erase_cons, if_pos (by simpa using hxa)]
        exact List.mem_of_mem_erase hb
      · rw [List.erase_cons, if_neg (by simpa using hxa)]
        exact List.mem_cons_of_mem x hb

theorem findClosePair_none : ∀ (l : List Vtx), findClosePair l = none →
    l.Pairwise (fun u v => u.pt.distLt v.pt vertexEpsilonSq = false) := by
  intro l
  induction l with
  | nil => intro _; exact List.Pairwise.nil
  | cons x rest ih =>
    intro h
    rw [findClosePair] at h
    cases hh : rest.find? (fun v => x.pt.distLt v.pt vertexEpsilonSq) with
    | some y => rw [hh] at h; cases h
    | none =>
      rw [hh] at h
      refine List.Pairwise.cons ?_ (ih h)
      intro v hv
      have := List.find?_eq_none.1 hh v hv
      simpa using this

theorem mergeVertices_verts_len (g : KGraph) (a b : Vtx) (nv : Vtx)
    (ha : a ∈ g.verts) (hb : b ∈ g.verts.erase a) :
    (((g.verts ++ [nv]).erase a).erase b).length + 1 = g.verts.length := by
  have h1 : (g.verts ++ [nv]).erase a = g.verts.erase a ++ [nv] :=
    List.erase_append_left _ ha
  have hb' : b ∈ g.verts.erase a ++ [nv] := List.mem_append.2 (Or.inl hb)
  have h2 : (g.verts.erase a ++ [nv]).erase b = (g.verts.erase a).erase b ++ [nv] :=
    List.erase_append_left _ hb
  rw [h1, h2]
  have hlen1 : (g.verts.erase a).length = g.verts.length - 1 :=
    List.length_erase_of_mem ha
  have hlen2 : ((g.verts.erase a).erase b).length = (g.verts.erase a).length - 1 :=
    List.length_erase_of_mem hb
  have hpos : 1 ≤ g.verts.length := List.length_pos_of_mem ha
  have hpos2 : 1 ≤ (g.verts.erase a).length := List.length_pos_of_mem hb
  simp [hlen2, hlen1] at *
  omega

theorem mergeVertices_finite (g : KGraph) (a b : Vtx)
    (hfin : ∀ v ∈ g.verts, v.pt.finite = true)
    (ha : a ∈ g.verts) (hb : b ∈ g.verts) :
    ∀ v ∈ (mergeVertices g a b).verts, v.pt.finite = true := by
  intro v hv
  have hv2 : v ∈ g.verts ++ [(⟨g.freshV,
      if a.pt.distEq0 b.pt then a.pt else a.pt.avg b.pt⟩ : Vtx)] :=
    List.mem_of_mem_erase (List.mem_of_mem_erase hv)
  rcases List.mem_append.1 hv2 with h | h
  · exact hfin v h
  · simp only [List.mem_singleton] at h
    subst h
    by_cases hd : a.pt.distEq0 b.pt
    · simp [hd]
      exact hfin a ha
    · simp [hd]
      exact avg_finite a.pt b.pt (hfin a ha) (hfin b hb)

theorem collapseVertices_total : ∀ (fuel : ℕ) (g : KGraph),
    g.verts.length ≤ fuel → (∀ v ∈ g.verts, v.pt.finite = true) →
    ∃ g', collapseVertices fuel g = some g' ∧
      (∀ v ∈ g'.verts, v.pt.finite = true) ∧
      g'.verts.Pairwise (fun u v => u.pt.distLt v.pt vertexEpsilonSq = false) := by
  intro fuel
  induction fuel with
  | zero =>
    intro g hlen hfin
    have hnil : g.verts = [] := List.length_eq_zero.1 (Nat.le_zero.1 hlen)
    refine ⟨g, ?_, hfin, by rw [hnil]; exact List.Pairwise.nil⟩
    rw [collapseVertices, hnil]
    rfl
  | succ f ih =>
    intro g hlen hfin
    cases hfc : findClosePair g.verts with
    | none =>
      refine ⟨g, ?_, hfin, findClosePair_none _ hfc⟩
      rw [collapseVertices, hfc]
    | some p =>
      obtain ⟨a, b⟩ := p
      obtain ⟨ha, hb⟩ := findClosePair_mem g.verts a b hfc
      have hlen1 := mergeVertices_verts_len g a b
        ⟨g.freshV, if a.pt.distEq0 b.pt then a.pt else a.pt.avg b.pt⟩ ha hb
      have hlenM : (mergeVertices g a b).verts.length ≤ f := by
        have : (mergeVertices g a b).verts =
            ((g.verts ++ [(⟨g.freshV,
              if a.pt.distEq0 b.pt then a.pt else a.pt.avg b.pt⟩ : Vtx)]).erase a).erase b := rfl
        rw [this]
        omega
      have hfinM := mergeVertices_finite g a b hfin ha (List.mem_of_mem_erase hb)
      obtain ⟨g', hrun, hf, hp⟩ := ih (mergeVertices g a b) hlenM hfinM
      refine ⟨g', ?_, hf, hp⟩
      rw [collapseVertices, hfc]
      exact hrun

theorem pairwise_dist_ge {l : List Vtx}
    (hfin : ∀ v ∈ l, v.pt.finite = true)
    (h : l.Pairwise (fun u v => u.pt.distLt v.pt vertexEpsilonSq = false)) :
    l.Pairwise (fun u v =>
      vertexEpsilonSq ≤ (u.pt.fx - v.pt.fx) ^ 2 + (u.pt.fy - v.pt.fy) ^ 2) := by
  induction l with
  | nil => exact List.Pairwise.nil
  | cons x rest ih =>
    rw [List.pairwise_cons] at h ⊢
    refine ⟨?_, ih (fun v hv => hfin v (List.mem_cons_of_mem x hv)) h.2⟩
    intro v hv
    exact distLt_false_ge x.pt v.pt vertexEpsilonSq
      (hfin x (List.mem_cons_self x rest))
      (hfin v (List.mem_cons_of_mem x hv))
      (h.1 v hv)

theorem eq_of_id_of_nodup : ∀ {l : List IEdge}, (l.map IEdge.id).Nodup →
    ∀ {x y : IEdge}, x ∈ l → y ∈ l → x.id = y.id → x = y := by
  intro l
  induction l with
  | nil => intro _ x y hx; simp at hx
  | cons z rest ih =>
    intro hnd x y hx hy hid
    rw [List.map_cons, List.nodup_cons] at hnd
    rcases List.mem_cons.1 hx with hx1 | hx1 <;> rcases List.mem_cons.1 hy with hy1 | hy1
    · rw [hx1, hy1]
    · exfalso
      apply hnd.1
      rw [hx1] at hid
      rw [hid]
      exact List.mem_map_of_mem IEdge.id hy1
    · exfalso
      apply hnd.1
      rw [hy1] at hid
      rw [← hid]
      exact List.mem_map_of_mem IEdge.id hx1
    · exact ih hnd.2 hx1 hy1 hid

/-- Claim C8: (a) when `collapseVertices` returns (fuel at least the
vertex count always suffices), every pair of distinct remaining vertices
is at squared Euclidean distance at least `vertexEpsilon ^ 2` (i.e.
distance at least `1e-5`), for finite-coordinate graphs; (b) one merge
places the new vertex at `a`'s point when the distance is exactly 0 and
at the midpoint otherwise, removing both old vertices; (c) every edge
whose two endpoints were both in the merged pair disappears from the
edge list and is spliced out of every loop. -/
theorem collapseVertices_spec :
    (∀ (fuel : ℕ) (g : KGraph), g.verts.length ≤ fuel →
      (∀ v ∈ g.verts, v.pt.finite = true) →
      ∃ g', collapseVertices fuel g = some g' ∧
        g'.verts.Pairwise (fun u v =>
          vertexEpsilonSq ≤ (u.pt.fx - v.pt.fx) ^ 2 + (u.pt.fy - v.pt.fy) ^ 2)) ∧
    (∀ (g : KGraph) (a b : Vtx),
      (a.pt.distEq0 b.pt = true →
        (mergeVertices g a b).verts =
          ((g.verts ++ [(⟨g.freshV, a.pt⟩ : Vtx)]).erase a).erase b) ∧
      (a.pt.distEq0 b.pt = false →
        (mergeVertices g a b).verts =
          ((g.verts ++ [(⟨g.freshV, a.pt.avg b.pt⟩ : Vtx)]).erase a).erase b)) ∧
    (∀ (g : KGraph) (a b : Vtx) (e : IEdge),
      (g.edges.map IEdge.id).Nodup → e ∈ g.edges →
      (e.startV = a.id ∨ e.startV = b.id) →
      (e.endV = a.id ∨ e.endV = b.id) →
      (∀ e' ∈ (mergeVertices g a b).edges, e'.id ≠ e.id) ∧
      (∀ lp ∈ (mergeVertices g a b).loops, ∀ h ∈ lp.halfEdges, h.eid ≠ e.id)) := by
  refine ⟨?_, ?_, ?_⟩
  · intro fuel g hlen hfin
    obtain ⟨g', hrun, hf, hp⟩ := collapseVertices_total fuel g hlen hfin
    exact ⟨g', hrun, pairwise_dist_ge hf hp⟩
  · intro g a b
    constructor
    · intro hd
      simp [mergeVertices, hd]
    · intro hd
      simp [mergeVertices, hd]
  · intro g a b e hnd hmem hs ht
    have hbm : (decide (e.startV = a.id) || decide (e.startV = b.id)) = true ∧
        (decide (e.endV = a.id) || decide (e.endV = b.id)) = true := by
      constructor
      · rcases hs with h | h <;> simp [h]
      · rcases ht with h | h <;> simp [h]
    constructor
    · intro e' he' hid
      simp only [mergeVertices, List.mem_filterMap] at he'
      obtain ⟨src, hsrc, hf⟩ := he'
      by_cases hb1 : ((decide (src.startV = a.id) || decide (src.startV = b.id)) &&
          (decide (src.endV = a.id) || decide (src.endV = b.id))) = true
      · rw [if_pos hb1] at hf
        cases hf
      · have hsid : src.id = e'.id := by
          by_cases hs1 : (decide (src.startV = a.id) || decide (src.startV = b.id)) = true
          · rw [if_neg hb1, if_pos hs1] at hf
            have h2 := Option.some.inj hf
            rw [← h2]
          · by_cases hs2 : (decide (src.endV = a.id) || decide (src.endV = b.id)) = true
            · rw [if_neg hb1, if_neg hs1, if_pos hs2] at hf
              have h2 := Option.some.inj hf
              rw [← h2]
            · rw [if_neg hb1, if_neg hs1, if_neg hs2] at hf
              have h2 := Option.some.inj hf
              rw [← h2]
        have heq : src = e := eq_of_id_of_nodup hnd hsrc hmem (by rw [hsid, hid])
        apply hb1
        rw [heq]
        simp [hbm.1, hbm.2]
    · intro lp hlp h hh hid
      simp only [mergeVertices, List.mem_map] at hlp
      obtain ⟨lp0, hlp0, hlpeq⟩ := hlp
      rw [← hlpeq] at hh
      simp only [List.mem_filter] at hh
      have hmemid : h.eid ∈ ((g.edges.filter fun x =>
          (decide (x.startV = a.id) || decide (x.startV = b.id)) &&
          (decide (x.endV = a.id) || decide (x.endV = b.id))).map IEdge.id) := by
        rw [hid]
        refine List.mem_map_of_mem IEdge.id ?_
        rw [List.mem_filter]
        exact ⟨hmem, by simp [hbm.1, hbm.2]⟩
      have hcontains : ((g.edges.filter fun x =>
          (decide (x.startV = a.id) || decide (x.startV = b.id)) &&
          (decide (x.endV = a.id) || decide (x.endV = b.id))).map IEdge.id).contains h.eid
          = true := List.elem_iff.2 hmemid
      have hcontra := hh.2
      rw [Bool.not_eq_true'] at hcontra
      rw [hcontains] at hcontra
      cases hcontra

/-- Witness for C8: two coincident vertices collapse into one; a
single edge between the merged pair is removed and spliced out. -/
theorem collapseVertices_spec_witness :
    (∃ g', collapseVertices 2
        ⟨[⟨0, ⟨.fin 0, .fin 0⟩⟩, ⟨1, ⟨.fin 0, .fin 0⟩⟩], [], fun _ => [], [], [], 2, 0⟩ =
          some g' ∧
      g'.verts.Pairwise (fun u v =>
        vertexEpsilonSq ≤ (u.pt.fx - v.pt.fx) ^ 2 + (u.pt.fy - v.pt.fy) ^ 2)) ∧
    (let a0 : Vtx := ⟨0, ⟨.fin 0, .fin 0⟩⟩
     let b0 : Vtx := ⟨1, ⟨.fin 0, .fin 0⟩⟩
     let g1 : KGraph := ⟨[a0, b0], [⟨0, .raw 0 default default, 0, 1⟩],
        fun _ => [], [⟨0, [⟨0, true⟩]⟩], [], 2, 1⟩
     ((a0.pt.distEq0 b0.pt = true →
        (mergeVertices g1 a0 b0).verts =
          ((g1.verts ++ [(⟨g1.freshV, a0.pt⟩ : Vtx)]).erase a0).erase b0) ∧
      (a0.pt.distEq0 b0.pt = false →
        (mergeVertices g1 a0 b0).verts =
          ((g1.verts ++ [(⟨g1.freshV, a0.pt.avg b0.pt⟩ : Vtx)]).erase a0).erase b0)) ∧
     (∀ e' ∈ (mergeVertices g1 a0 b0).edges,
        e'.id ≠ (⟨0, .raw 0 default default, 0, 1⟩ : IEdge).id) ∧
     (∀ lp ∈ (mergeVertices g1 a0 b0).loops, ∀ h ∈ lp.halfEdges,
        h.eid ≠ (⟨0, .raw 0 default default, 0, 1⟩ : IEdge).id)) :=
  ⟨collapseVertices_spec.1 2
      ⟨[⟨0, ⟨.fin 0, .fin 0⟩⟩, ⟨1, ⟨.fin 0, .fin 0⟩⟩], [], fun _ => [], [], [], 2, 0⟩
      (by decide) (by decide),
   collapseVertices_spec.2.1
      ⟨[⟨0, ⟨.fin 0, .fin 0⟩⟩, ⟨1, ⟨.fin 0, .fin 0⟩⟩],
        [⟨0, .raw 0 default default, 0, 1⟩], fun _ => [], [⟨0, [⟨0, true⟩]⟩], [], 2, 1⟩
      ⟨0, ⟨.fin 0, .fin 0⟩⟩ ⟨1, ⟨.fin 0, .fin 0⟩⟩,
   collapseVertices_spec.2.2
      ⟨[⟨0, ⟨.fin 0, .fin 0⟩⟩, ⟨1, ⟨.fin 0, .fin 0⟩⟩],
        [⟨0, .raw 0 default default, 0, 1⟩], fun _ => [], [⟨0, [⟨0, true⟩]⟩], [], 2, 1⟩
      ⟨0, ⟨.fin 0, .fin 0⟩⟩ ⟨1, ⟨.fin 0, .fin 0⟩⟩ ⟨0, .raw 0 default default, 0, 1⟩
      (by decide) (by decide) (by decide) (by decide)⟩

/-! ### Claims C1 and C7: the winding-map pass -/

theorem windingPass_sublist (g : WGraph) : ∀ (es : List ℕ) (w : WMap),
    (windingPass g es w).1.Sublist es := by
  intro es
  induction es with
  | nil => intro w; simp [windingPass]
  | cons e rest ih =>
    intro w
    simp only [windingPass]
    cases h1 : (windingPass g rest w).2 (g.fface e) with
    | some mf =>
      cases h2 : (windingPass g rest w).2 (g.rface e) with
      | some mr =>
        simp only [h1, h2]
        exact (ih w).trans (List.sublist_cons_self e rest)
      | none =>
        simp only [h1, h2]
        exact (ih w).cons₂ e
    | none =>
      cases h2 : (windingPass g rest w).2 (g.rface e) with
      | some mr =>
        simp only [h1, h2]
        exact (ih w).cons₂ e
      | none =>
        simp only [h1, h2]
        exact (ih w).cons₂ e

theorem windingPass_persist (g : WGraph) : ∀ (es : List ℕ) (w : WMap) (f : ℕ)
    (m : ℕ → ℤ), w f = some m → (windingPass g es w).2 f = some m := by
  intro es
  induction es with
  | nil => intro w f m hm; simpa [windingPass] using hm
  | cons e rest ih =>
    intro w f m hm
    have hm' := ih w f m hm
    simp only [windingPass]
    cases h1 : (windingPass g rest w).2 (g.fface e) with
    | some mf =>
      cases h2 : (windingPass g rest w).2 (g.rface e) with
      | some mr => simpa only [h1, h2] using hm'
      | none =>
        simp only [h1, h2]
        have hne : f ≠ g.rface e := by
          intro hc
          rw [hc, h2] at hm'
          cases hm'
        simp only [if_neg hne]
        exact hm'
    | none =>
      cases h2 : (windingPass g rest w).2 (g.rface e) with
      | some mr =>
        simp only [h1, h2]
        have hne : f ≠ g.fface e := by
          intro hc
          rw [hc, h1] at hm'
          cases hm'
        simp only [if_neg hne]
        exact hm'
      | none => simpa only [h1, h2] using hm'

theorem windingPass_agree (g : WGraph) (W : ℕ → ℕ → ℤ)
    (hWd : ∀ e ∈ g.edges, ∀ s ∈ g.shapeIds,
      W (g.fface e) s - W (g.rface e) s = computeDifferential g e s) :
    ∀ (es : List ℕ) (w : WMap), (∀ e ∈ es, e ∈ g.edges) →
    (∀ f m, w f = some m → ∀ s ∈ g.shapeIds, m s = W f s) →
    ∀ f m, (windingPass g es w).2 f = some m → ∀ s ∈ g.shapeIds, m s = W f s := by
  intro es
  induction es with
  | nil =>
    intro w _ hagree f m hm
    exact hagree f m (by simpa [windingPass] using hm)
  | cons e rest ih =>
    intro w hsub hagree f m hm
    have hrest : ∀ x ∈ rest, x ∈ g.edges := fun x hx => hsub x (List.mem_cons_of_mem e hx)
    have hrec := ih w hrest hagree
    have he : e ∈ g.edges := hsub e (List.mem_cons_self e rest)
    simp only [windingPass] at hm
    cases h1 : (windingPass g rest w).2 (g.fface e) with
    | some mf =>
      cases h2 : (windingPass g rest w).2 (g.rface e) with
      | some mr =>
        rw [h1, h2] at hm
        exact hrec f m hm
      | none =>
        rw [h1, h2] at hm
        simp only at hm
        by_cases hf : f = g.rface e
        · rw [if_pos hf] at hm
          have hmeq : m = fun s => mf s + computeDifferential g e s * (-1) :=
            (Option.some.inj hm).symm
          intro s hs
          rw [hmeq, hf]
          have h3 := hrec (g.fface e) mf h1 s hs
          have h4 := hWd e he s hs
          simp only
          omega
        · rw [if_neg hf] at hm
          exact hrec f m hm
    | none =>
      cases h2 : (windingPass g rest w).2 (g.rface e) with
      | some mr =>
        rw [h1, h2] at hm
        simp only at hm
        by_cases hf : f = g.fface e
        · rw [if_pos hf] at hm
          have hmeq : m = fun s => mr s + computeDifferential g e s * 1 :=
            (Option.some.inj hm).symm
          intro s hs
          rw [hmeq, hf]
          have h3 := hrec (g.rface e) mr h2 s hs
          have h4 := hWd e he s hs
          simp only
          omega
        · rw [if_neg hf] at hm
          exact hrec f m hm
      | none =>
        rw [h1, h2] at hm
        exact hrec f m hm

theorem windingPass_out (g : WGraph) : ∀ (es : List ℕ) (w : WMap) (e : ℕ),
    e ∈ es → e ∉ (windingPass g es w).1 →
    (∃ m, (windingPass g es w).2 (g.fface e) = some m) ∧
    (∃ m, (windingPass g es w).2 (g.rface e) = some m) := by
  intro es
  induction es with
  | nil => intro w e hmem; simp at hmem
  | cons e0 rest ih =>
    intro w e hmem hnot
    simp only [windingPass] at hnot ⊢
    cases h1 : (windingPass g rest w).2 (g.fface e0) with
    | some mf =>
      cases h2 : (windingPass g rest w).2 (g.rface e0) with
      | some mr =>
        rw [h1, h2] at hnot
        simp only [h1, h2]
        rcases List.mem_cons.1 hmem with he | he
        · subst he
          exact ⟨⟨mf, h1⟩, ⟨mr, h2⟩⟩
        · exact ih w e he hnot
      | none =>
        rw [h1, h2] at hnot
        simp only [h1, h2]
        simp only [List.mem_cons, not_or] at hnot
        rcases List.mem_cons.1 hmem with he | he
        · exact absurd he.symm (Ne.symm hnot.1)
        · have hrec := ih w e he hnot.2
          constructor
          · by_cases hf : g.fface e = g.rface e0
            · exact ⟨_, by rw [if_pos hf]⟩
            · obtain ⟨m, hm⟩ := hrec.1
              exact ⟨m, by simp only [if_neg hf]; exact hm⟩
          · by_cases hf : g.rface e = g.rface e0
            · exact ⟨_, by rw [if_pos hf]⟩
            · obtain ⟨m, hm⟩ := hrec.2
              exact ⟨m, by simp only [if_neg hf]; exact hm⟩
    | none =>
      cases h2 : (windingPass g rest w).2 (g.rface e0) with
      | some mr =>
        rw [h1, h2] at hnot
        simp only [h1, h2]
        simp only [List.mem_cons, not_or] at hnot
        rcases List.mem_cons.1 hmem with he | he
        · exact absurd he.symm (Ne.symm hnot.1)
        · have hrec := ih w e he hnot.2
          constructor
          · by_cases hf : g.fface e = g.fface e0
            · exact ⟨_, by rw [if_pos hf]⟩
            · obtain ⟨m, hm⟩ := hrec.1
              exact ⟨m, by simp only [if_neg hf]; exact hm⟩
          · by_cases hf : g.rface e = g.fface e0
            · exact ⟨_, by rw [if_pos hf]⟩
            · obtain ⟨m, hm⟩ := hrec.2
              exact ⟨m, by simp only [if_neg hf]; exact hm⟩
      | none =>
        rw [h1, h2] at hnot
        simp only [h1, h2]
        simp only [List.mem_cons, not_or] at hnot
        rcases List.mem_cons.1 hmem with he | he
        · exact absurd he.symm (Ne.symm hnot.1)
        · exact ih w e he hnot.2

theorem windingLoop_spec (g : WGraph) (W : ℕ → ℕ → ℤ)
    (hWd : ∀ e ∈ g.edges, ∀ s ∈ g.shapeIds,
      W (g.fface e) s - W (g.rface e) s = computeDifferential g e s) :
    ∀ (n : ℕ) (es : List ℕ) (w wf : WMap),
    (∀ x ∈ es, x ∈ g.edges) →
    (∀ e ∈ g.edges, e ∉ es →
      (∃ m, w (g.fface e) = some m) ∧ (∃ m, w (g.rface e) = some m)) →
    (∀ f m, w f = some m → ∀ s ∈ g.shapeIds, m s = W f s) →
    windingLoop g n es w = some wf →
    (∀ f m, w f = some m → wf f = some m) ∧
    (∀ e ∈ g.edges, (∃ m, wf (g.fface e) = some m) ∧ (∃ m, wf (g.rface e) = some m)) ∧
    (∀ f m, wf f = some m → ∀ s ∈ g.shapeIds, m s = W f s) := by
  intro n
  induction n with
  | zero =>
    intro es w wf hsub hout hagree hrun
    rw [windingLoop] at hrun
    by_cases hes : es.isEmpty
    · rw [if_pos hes] at hrun
      have hw : w = wf := Option.some.inj hrun
      subst hw
      have hnil : es = [] := List.isEmpty_iff.1 hes
      subst hnil
      exact ⟨fun f m hm => hm, fun e he => hout e he (by simp), hagree⟩
    · rw [if_neg hes] at hrun
      cases hrun
  | succ n ih =>
    intro es w wf hsub hout hagree hrun
    rw [windingLoop] at hrun
    by_cases hes : es.isEmpty
    · rw [if_pos hes] at hrun
      have hw : w = wf := Option.some.inj hrun
      subst hw
      have hnil : es = [] := List.isEmpty_iff.1 hes
      subst hnil
      exact ⟨fun f m hm => hm, fun e he => hout e he (by simp), hagree⟩
    · rw [if_neg hes] at hrun
      have hsub' : ∀ x ∈ (windingPass g es w).1, x ∈ g.edges :=
        fun x hx => hsub x ((windingPass_sublist g es w).mem hx)
      have hout' : ∀ e ∈ g.edges, e ∉ (windingPass g es w).1 →
          (∃ m, (windingPass g es w).2 (g.fface e) = some m) ∧
          (∃ m, (windingPass g es w).2 (g.rface e) = some m) := by
        intro e he hnot
        by_cases hmem : e ∈ es
        · exact windingPass_out g es w e hmem hnot
        · obtain ⟨⟨m1, hm1⟩, ⟨m2, hm2⟩⟩ := hout e he hmem
          exact ⟨⟨m1, windingPass_persist g es w _ m1 hm1⟩,
            ⟨m2, windingPass_persist g es w _ m2 hm2⟩⟩
      have hagree' := windingPass_agree g W hWd es w hsub hagree
      obtain ⟨hp, ho, ha⟩ := ih (windingPass g es w).1 (windingPass g es w).2 wf
        hsub' hout' hagree' hrun
      exact ⟨fun f m hm => hp f m (windingPass_persist g es w f m hm), ho, ha⟩

/-- Claim C1: whenever `computeWindingMap` completes (within any fuel),
and the input face assignment is consistent — i.e. some potential `W`
realizes the differentials, which is what the earlier pipeline phases
guarantee for a planar graph — the unbounded face's winding map is zero
for every shape id, and for every edge the winding map of the face on
the forward side minus that on the reversed side equals the edge
differential (loop count of `forwardHalf` minus `reversedHalf`
occurrences) at every shape id. -/
theorem computeWindingMap_consistency (g : WGraph) (W : ℕ → ℕ → ℤ) (fuel : ℕ)
    (wf : WMap)
    (hW0 : ∀ s, W g.unbounded s = 0)
    (hWd : ∀ e ∈ g.edges, ∀ s ∈ g.shapeIds,
      W (g.fface e) s - W (g.rface e) s = computeDifferential g e s)
    (hrun : computeWindingMap g fuel = some wf) :
    (∃ m, wf g.unbounded = some m ∧ ∀ s, m s = 0) ∧
    (∀ e ∈ g.edges, ∃ mf mr, wf (g.fface e) = some mf ∧ wf (g.rface e) = some mr ∧
      ∀ s ∈ g.shapeIds, mf s - mr s = computeDifferential g e s) := by
  rw [computeWindingMap] at hrun
  have hagree0 : ∀ f m, windingInit g f = some m → ∀ s ∈ g.shapeIds, m s = W f s := by
    intro f m hm s hs
    rw [windingInit] at hm
    by_cases hf : f = g.unbounded
    · rw [if_pos hf] at hm
      have : m = fun _ => 0 := (Option.some.inj hm).symm
      rw [this, hf, hW0 s]
    · rw [if_neg hf] at hm
      cases hm
  obtain ⟨hp, ho, ha⟩ := windingLoop_spec g W hWd fuel g.edges (windingInit g) wf
    (fun x hx => hx) (fun e he hne => absurd he hne) hagree0 hrun
  constructor
  · refine ⟨fun _ => 0, ?_, fun s => rfl⟩
    apply hp
    rw [windingInit, if_pos rfl]
  · intro e he
    obtain ⟨⟨mf, hmf⟩, ⟨mr, hmr⟩⟩ := ho e he
    refine ⟨mf, mr, hmf, hmr, ?_⟩
    intro s hs
    have h1 := ha (g.fface e) mf hmf s hs
    have h2 := ha (g.rface e) mr hmr s hs
    have h3 := hWd e he s hs
    omega

/-- Witness for C1: one edge between the unbounded face 0 and face 1,
carried once forward by a single loop of shape id 0. -/
theorem computeWindingMap_consistency_witness :
    (let gW : WGraph := ⟨[0, 1], 0, [0], fun _ => 1, fun _ => 0,
        [⟨0, [⟨0, true⟩]⟩], [0]⟩
     let wfW : WMap := (windingPass gW [0] (windingPass gW [0] (windingInit gW)).2).2
     (∃ m, wfW gW.unbounded = some m ∧ ∀ s, m s = 0) ∧
     (∀ e ∈ gW.edges, ∃ mf mr, wfW (gW.fface e) = some mf ∧
        wfW (gW.rface e) = some mr ∧
        ∀ s ∈ gW.shapeIds, mf s - mr s = computeDifferential gW e s)) :=
  computeWindingMap_consistency
    ⟨[0, 1], 0, [0], fun _ => 1, fun _ => 0, [⟨0, [⟨0, true⟩]⟩], [0]⟩
    (fun f _ => if f = 1 then 1 else 0) 2
    (windingPass ⟨[0, 1], 0, [0], fun _ => 1, fun _ => 0, [⟨0, [⟨0, true⟩]⟩], [0]⟩ [0]
      (windingPass ⟨[0, 1], 0, [0], fun _ => 1, fun _ => 0, [⟨0, [⟨0, true⟩]⟩], [0]⟩ [0]
        (windingInit ⟨[0, 1], 0, [0], fun _ => 1, fun _ => 0, [⟨0, [⟨0, true⟩]⟩], [0]⟩)).2).2
    (fun _ => rfl) (by decide) rfl

theorem filter_length_mono {α : Type} (l : List α) (p q : α → Bool)
    (h : ∀ a ∈ l, p a = true → q a = true) :
    (l.filter p).length ≤ (l.filter q).length := by
  induction l with
  | nil => simp
  | cons x rest ih =>
    have ih' := ih (fun a ha hp => h a (List.mem_cons_of_mem x ha) hp)
    by_cases hp : p x = true
    · have hq := h x (List.mem_cons_self x rest) hp
      simp only [List.filter_cons, hp, hq, if_true, List.length_cons]
      omega
    · rw [List.filter_cons, if_neg (by simpa using hp)]
      by_cases hq : q x = true
      · rw [List.filter_cons, if_pos (by simpa using hq), List.length_cons]
        omega
      · rw [List.filter_cons, if_neg (by simpa using hq)]
        exact ih'

theorem filter_length_strict {α : Type} (l : List α) (p q : α → Bool)
    (h : ∀ a ∈ l, p a = true → q a = true) (a0 : α) (ha0 : a0 ∈ l)
    (hq0 : q a0 = true) (hp0 : p a0 = false) :
    (l.filter p).length < (l.filter q).length := by
  induction l with
  | nil => simp at ha0
  | cons x rest ih =>
    have hmono : (rest.filter p).length ≤ (rest.filter q).length :=
      filter_length_mono rest p q (fun a ha hp => h a (List.mem_cons_of_mem x ha) hp)
    rcases List.mem_cons.1 ha0 with hx | hx
    · subst hx
      rw [List.filter_cons, if_neg (by simp [hp0]), List.filter_cons,
        if_pos (by simpa using hq0), List.length_cons]
      omega
    · have ih' := ih (fun a ha hp => h a (List.mem_cons_of_mem x ha) hp) hx
      by_cases hp : p x = true
      · have hq := h x (List.mem_cons_self x rest) hp
        simp only [List.filter_cons, hp, hq, if_true, List.length_cons]
        omega
      · rw [List.filter_cons, if_neg (by simpa using hp)]
        by_cases hq : q x = true
        · rw [List.filter_cons, if_pos (by simpa using hq), List.length_cons]
          omega
        · rw [List.filter_cons, if_neg (by simpa using hq)]
          exact ih'

theorem windingPass_none_back (g : WGraph) (es : List ℕ) (w : WMap) (f : ℕ)
    (h : (windingPass g es w).2 f = none) : w f = none := by
  cases hw : w f with
  | none => rfl
  | some m =>
    rw [windingPass_persist g es w f m hw] at h
    cases h

theorem windingPass_count_mono (g : WGraph) (es : List ℕ) (w : WMap) :
    (g.faces.filter fun f => ((windingPass g es w).2 f).isNone).length ≤
      (g.faces.filter fun f => (w f).isNone).length := by
  apply filter_length_mono
  intro f _ hp
  have : (windingPass g es w).2 f = none := by
    cases hc : (windingPass g es w).2 f with
    | none => rfl
    | some m => rw [hc] at hp; simp at hp
  rw [windingPass_none_back g es w f this]
  rfl

theorem windingPass_stall (g : WGraph)
    (hfaces : ∀ e ∈ g.edges, g.fface e ∈ g.faces ∧ g.rface e ∈ g.faces) :
    ∀ (es : List ℕ) (w : WMap), (∀ x ∈ es, x ∈ g.edges) →
    (windingPass g es w).1.length = es.length →
    (g.faces.filter fun f => ((windingPass g es w).2 f).isNone).length =
      (g.faces.filter fun f => (w f).isNone).length →
    ∀ e ∈ es, w (g.fface e) = none ∧ w (g.rface e) = none := by
  intro es
  induction es with
  | nil => intro w _ _ _ e he; simp at he
  | cons e0 rest ih =>
    intro w hsub hlen hcount e hmem
    have hsubr : ∀ x ∈ rest, x ∈ g.edges := fun x hx => hsub x (List.mem_cons_of_mem e0 hx)
    have hsl := windingPass_sublist g rest w
    cases h1 : (windingPass g rest w).2 (g.fface e0) with
    | some mf =>
      cases h2 : (windingPass g rest w).2 (g.rface e0) with
      | some mr =>
        have hpass : windingPass g (e0 :: rest) w =
            ((windingPass g rest w).1, (windingPass g rest w).2) := by
          simp only [windingPass]
          rw [h1, h2]
        rw [hpass] at hlen
        simp only [List.length_cons] at hlen
        have := hsl.length_le
        omega
      | none =>
        exfalso
        have hpass : windingPass g (e0 :: rest) w =
            (e0 :: (windingPass g rest w).1, fun f =>
              if f = g.rface e0
              then some (fun s => mf s + computeDifferential g e0 s * (-1))
              else (windingPass g rest w).2 f) := by
          simp only [windingPass]
          rw [h1, h2]
        rw [hpass] at hcount
        simp only at hcount
        have hrf : g.rface e0 ∈ g.faces :=
          (hfaces e0 (hsub e0 (List.mem_cons_self e0 rest))).2
        have hwn : w (g.rface e0) = none := windingPass_none_back g rest w _ h2
        have hstrict := filter_length_strict g.faces
          (fun f => (if f = g.rface e0
            then some (fun s => mf s + computeDifferential g e0 s * (-1))
            else (windingPass g rest w).2 f).isNone)
          (fun f => (w f).isNone)
          (by
            intro f _ hp
            simp only at hp
            by_cases hf : f = g.rface e0
            · rw [if_pos hf] at hp; simp at hp
            · rw [if_neg hf] at hp
              have hn2 : (windingPass g rest w).2 f = none := by
                cases hc : (windingPass g rest w).2 f with
                | none => rfl
                | some m => rw [hc] at hp; simp at hp
              simp only [windingPass_none_back g rest w f hn2]
              rfl)
          (g.rface e0) hrf (by simp only [hwn]; rfl) (by simp)
        omega
    | none =>
      cases h2 : (windingPass g rest w).2 (g.rface e0) with
      | some mr =>
        exfalso
        have hpass : windingPass g (e0 :: rest) w =
            (e0 :: (windingPass g rest w).1, fun f =>
              if f = g.fface e0
              then some (fun s => mr s + computeDifferential g e0 s * 1)
              else (windingPass g rest w).2 f) := by
          simp only [windingPass]
          rw [h1, h2]
        rw [hpass] at hcount
        simp only at hcount
        have hff : g.fface e0 ∈ g.faces :=
          (hfaces e0 (hsub e0 (List.mem_cons_self e0 rest))).1
        have hwn : w (g.fface e0) = none := windingPass_none_back g rest w _ h1
        have hstrict := filter_length_strict g.faces
          (fun f => (if f = g.fface e0
            then some (fun s => mr s + computeDifferential g e0 s * 1)
            else (windingPass g rest w).2 f).isNone)
          (fun f => (w f).isNone)
          (by
            intro f _ hp
            simp only at hp
            by_cases hf : f = g.fface e0
            · rw [if_pos hf] at hp; simp at hp
            · rw [if_neg hf] at hp
              have hn2 : (windingPass g rest w).2 f = none := by
                cases hc : (windingPass g rest w).2 f with
                | none => rfl
                | some m => rw [hc] at hp; simp at hp
              simp only [windingPass_none_back g rest w f hn2]
              rfl)
          (g.fface e0) hff (by simp only [hwn]; rfl) (by simp)
        omega
      | none =>
        have hpass : windingPass g (e0 :: rest) w =
            (e0 :: (windingPass g rest w).1, (windingPass g rest w).2) := by
          simp only [windingPass]
          rw [h1, h2]
        rw [hpass] at hlen hcount
        simp only [List.length_cons] at hlen
        simp only at hcount
        rcases List.mem_cons.1 hmem with he | he
        · subst he
          exact ⟨windingPass_none_back g rest w _ h1, windingPass_none_back g rest w _ h2⟩
        · exact ih w hsubr (by omega) hcount e he

theorem winding_reach_solved (g : WGraph) (es : List ℕ) (w : WMap)
    (hout : ∀ e ∈ g.edges, e ∉ es →
      (∃ m, w (g.fface e) = some m) ∧ (∃ m, w (g.rface e) = some m))
    (hnone : ∀ e ∈ es, w (g.fface e) = none ∧ w (g.rface e) = none)
    (hub : ∃ m, w g.unbounded = some m) :
    ∀ f, WReach g f → ∃ m, w f = some m := by
  intro f hr
  induction hr with
  | base => exact hub
  | @step f1 f2 e hr1 he hor ih =>
    by_cases hes : e ∈ es
    · exfalso
      obtain ⟨h1, h2⟩ := hnone e hes
      obtain ⟨m, hm⟩ := ih
      rcases hor with ⟨hf, _⟩ | ⟨hf, _⟩
      · rw [hf, hm] at h1; cases h1
      · rw [hf, hm] at h2; cases h2
    · obtain ⟨hf', hr'⟩ := hout e he hes
      rcases hor with ⟨_, hf2⟩ | ⟨_, hf2⟩
      · exact hf2 ▸ hr'
      · exact hf2 ▸ hf'

theorem windingLoop_total (g : WGraph)
    (hfaces : ∀ e ∈ g.edges, g.fface e ∈ g.faces ∧ g.rface e ∈ g.faces)
    (hreach : ∀ f ∈ g.faces, WReach g f) :
    ∀ (n : ℕ) (es : List ℕ) (w : WMap),
    (∀ x ∈ es, x ∈ g.edges) →
    (∀ e ∈ g.edges, e ∉ es →
      (∃ m, w (g.fface e) = some m) ∧ (∃ m, w (g.rface e) = some m)) →
    (∃ m, w g.unbounded = some m) →
    es.length + (g.faces.filter fun f => (w f).isNone).length ≤ n →
    ∃ wf, windingLoop g n es w = some wf ∧
      (∀ e ∈ g.edges,
        (∃ m, wf (g.fface e) = some m) ∧ (∃ m, wf (g.rface e) = some m)) ∧
      (∃ m, wf g.unbounded = some m) := by
  intro n
  induction n with
  | zero =>
    intro es w hsub hout hub hmu
    have hes : es = [] := List.length_eq_zero.1 (by omega)
    subst hes
    refine ⟨w, by rw [windingLoop]; rfl, fun e he => hout e he (by simp), hub⟩
  | succ n ih =>
    intro es w hsub hout hub hmu
    by_cases hes : es.isEmpty
    · have hnil : es = [] := List.isEmpty_iff.1 hes
      subst hnil
      refine ⟨w, by rw [windingLoop]; rfl, fun e he => hout e he (by simp), hub⟩
    · have hne : es ≠ [] := fun hc => hes (by rw [hc]; rfl)
      have hsub' : ∀ x ∈ (windingPass g es w).1, x ∈ g.edges :=
        fun x hx => hsub x ((windingPass_sublist g es w).mem hx)
      have hout' : ∀ e ∈ g.edges, e ∉ (windingPass g es w).1 →
          (∃ m, (windingPass g es w).2 (g.fface e) = some m) ∧
          (∃ m, (windingPass g es w).2 (g.rface e) = some m) := by
        intro e he hnot
        by_cases hmem : e ∈ es
        · exact windingPass_out g es w e hmem hnot
        · obtain ⟨⟨m1, hm1⟩, ⟨m2, hm2⟩⟩ := hout e he hmem
          exact ⟨⟨m1, windingPass_persist g es w _ m1 hm1⟩,
            ⟨m2, windingPass_persist g es w _ m2 hm2⟩⟩
      have hub' : ∃ m, (windingPass g es w).2 g.unbounded = some m := by
        obtain ⟨m, hm⟩ := hub
        exact ⟨m, windingPass_persist g es w _ m hm⟩
      have hlen := (windingPass_sublist g es w).length_le
      have hcmono := windingPass_count_mono g es w
      have hstrict : (windingPass g es w).1.length +
          (g.faces.filter fun f => ((windingPass g es w).2 f).isNone).length <
          es.length + (g.faces.filter fun f => (w f).isNone).length := by
        by_contra hc
        push_neg at hc
        have hleq : (windingPass g es w).1.length = es.length := by omega
        have hceq : (g.faces.filter fun f => ((windingPass g es w).2 f).isNone).length =
            (g.faces.filter fun f => (w f).isNone).length := by omega
        have hallnone := windingPass_stall g hfaces es w hsub hleq hceq
        obtain ⟨e, hmem⟩ := List.exists_mem_of_ne_nil es hne
        have hfr : WReach g (g.fface e) := hreach _ (hfaces e (hsub e hmem)).1
        obtain ⟨m, hm⟩ := winding_reach_solved g es w hout hallnone hub _ hfr
        rw [(hallnone e hmem).1] at hm
        cases hm
      obtain ⟨wf, hrun, hpost⟩ := ih (windingPass g es w).1 (windingPass g es w).2
        hsub' hout' hub' (by omega)
      refine ⟨wf, ?_, hpost⟩
      rw [windingLoop, if_neg hes]
      exact hrun

/-- Claim C7: when every face is reachable from the unbounded face
through faces sharing an edge (the state the earlier pipeline phases
establish), `computeWindingMap` terminates — fuel
`edges.length + faces.length` outer passes always suffices — and on
termination every face of the graph has a solved (non-null) winding
map. -/
theorem computeWindingMap_terminates (g : WGraph)
    (hfaces : ∀ e ∈ g.edges, g.fface e ∈ g.faces ∧ g.rface e ∈ g.faces)
    (hreach : ∀ f ∈ g.faces, WReach g f) :
    ∃ wf, computeWindingMap g (g.edges.length + g.faces.length) = some wf ∧
      ∀ f ∈ g.faces, ∃ m, wf f = some m := by
  have hmu : g.edges.length + (g.faces.filter fun f => ((windingInit g) f).isNone).length ≤
      g.edges.length + g.faces.length := by
    have := List.length_filter_le (fun f => ((windingInit g) f).isNone) g.faces
    omega
  obtain ⟨wf, hrun, hall, hub⟩ := windingLoop_total g hfaces hreach
    (g.edges.length + g.faces.length) g.edges (windingInit g)
    (fun x hx => hx) (fun e he hne => absurd he hne)
    ⟨fun _ => 0, by rw [windingInit, if_pos rfl]⟩ hmu
  refine ⟨wf, hrun, ?_⟩
  intro f hf
  exact winding_reach_solved g [] wf
    (fun e he _ => hall e he) (fun e he => by simp at he) hub f (hreach f hf)

/-- Witness for C7 on the one-edge two-face graph. -/
theorem computeWindingMap_terminates_witness :
    (let gW : WGraph := ⟨[0, 1], 0, [0], fun _ => 1, fun _ => 0,
        [⟨0, [⟨0, true⟩]⟩], [0]⟩
     ∃ wf, computeWindingMap gW (gW.edges.length + gW.faces.length) = some wf ∧
       ∀ f ∈ gW.faces, ∃ m, wf f = some m) :=
  computeWindingMap_terminates
    ⟨[0, 1], 0, [0], fun _ => 1, fun _ => 0, [⟨0, [⟨0, true⟩]⟩], [0]⟩
    (by decide)
    (by
      intro f hf
      simp only [List.mem_cons, List.not_mem_nil, or_false, List.mem_singleton] at hf
      rcases hf with rfl | rfl
      · exact WReach.base
      · exact WReach.step (e := 0) WReach.base (by simp) (Or.inr ⟨rfl, rfl⟩))

/-! ### Claim C10: alternating fill -/

theorem fillStep_eq_fwd (g : WGraph) (w : FMap) (e : ℕ) (b2 : Bool)
    (h1 : w (g.fface e) = none) (h2 : w (g.rface e) = some b2) :
    fillStep g w e = fun f => if f = g.fface e then some (!b2) else w f := by
  rw [fillStep, h1, h2]

theorem fillStep_eq_rev (g : WGraph) (w : FMap) (e : ℕ) (b2 : Bool)
    (h1 : w (g.fface e) = some b2) (h2 : w (g.rface e) = none) :
    fillStep g w e = fun f => if f = g.rface e then some (!b2) else w f := by
  rw [fillStep, h1, h2]

theorem fillStep_eq_stay_none (g : WGraph) (w : FMap) (e : ℕ)
    (h1 : w (g.fface e) = none) (h2 : w (g.rface e) = none) :
    fillStep g w e = w := by
  rw [fillStep, h1, h2]

theorem fillStep_eq_stay_some (g : WGraph) (w : FMap) (e : ℕ) (b1 b2 : Bool)
    (h1 : w (g.fface e) = some b1) (h2 : w (g.rface e) = some b2) :
    fillStep g w e = w := by
  rw [fillStep, h1, h2]

theorem fillStep_persist (g : WGraph) (w : FMap) (e : ℕ) (f : ℕ) (b : Bool)
    (h : w f = some b) : fillStep g w e f = some b := by
  cases h1 : w (g.fface e) with
  | none =>
    cases h2 : w (g.rface e) with
    | none => rw [fillStep_eq_stay_none g w e h1 h2]; exact h
    | some b2 =>
      rw [fillStep_eq_fwd g w e b2 h1 h2]
      have hne : f ≠ g.fface e := by
        intro hc
        rw [hc, h1] at h
        cases h
      simp only [if_neg hne]
      exact h
  | some b1 =>
    cases h2 : w (g.rface e) with
    | none =>
      rw [fillStep_eq_rev g w e b1 h1 h2]
      have hne : f ≠ g.rface e := by
        intro hc
        rw [hc, h2] at h
        cases h
      simp only [if_neg hne]
      exact h
    | some b2 => rw [fillStep_eq_stay_some g w e b1 b2 h1 h2]; exact h

theorem fill_foldl_persist (g : WGraph) : ∀ (l : List ℕ) (w : FMap) (f : ℕ) (b : Bool),
    w f = some b → (l.foldl (fillStep g) w) f = some b := by
  intro l
  induction l with
  | nil => intro w f b h; exact h
  | cons e rest ih =>
    intro w f b h
    rw [List.foldl_cons]
    exact ih (fillStep g w e) f b (fillStep_persist g w e f b h)

theorem fill_foldl_fix (g : WGraph) : ∀ (l : List ℕ) (w : FMap),
    l.foldl (fillStep g) w = w → ∀ e ∈ l, fillStep g w e = w := by
  intro l
  induction l with
  | nil => intro w _ e he; simp at he
  | cons e0 rest ih =>
    intro w hfold e' hmem
    rw [List.foldl_cons] at hfold
    have hstep : fillStep g w e0 = w := by
      funext f
      cases hw : w f with
      | some b => rw [fillStep_persist g w e0 f b hw]
      | none =>
        cases hs : fillStep g w e0 f with
        | none => rfl
        | some b =>
          have := fill_foldl_persist g rest (fillStep g w e0) f b hs
          rw [hfold] at this
          rw [this] at hw
          cases hw
    rcases List.mem_cons.1 hmem with he | he
    · rw [he]; exact hstep
    · rw [hstep] at hfold
      exact ih w hfold e' he

theorem fillPass_fix_balanced (g : WGraph) (w : FMap) (hfix : fillPass g w = w) :
    ∀ e ∈ g.edges, ((w (g.fface e)).isSome = (w (g.rface e)).isSome) := by
  intro e he
  have hstep := fill_foldl_fix g g.edges w hfix e he
  cases h1 : w (g.fface e) with
  | none =>
    cases h2 : w (g.rface e) with
    | none => rfl
    | some b2 =>
      exfalso
      rw [fillStep_eq_fwd g w e b2 h1 h2] at hstep
      have := congrFun hstep (g.fface e)
      simp only [if_pos rfl] at this
      rw [h1] at this
      cases this
  | some b1 =>
    cases h2 : w (g.rface e) with
    | none =>
      exfalso
      rw [fillStep_eq_rev g w e b1 h1 h2] at hstep
      have := congrFun hstep (g.rface e)
      simp only [if_pos rfl] at this
      rw [h2] at this
      cases this
    | some b2 => simp

theorem fill_reach_solved (g : WGraph) (w : FMap)
    (hbal : ∀ e ∈ g.edges, ((w (g.fface e)).isSome = (w (g.rface e)).isSome))
    (hub : (w g.unbounded).isSome = true) :
    ∀ f, WReach g f → (w f).isSome = true := by
  intro f hr
  induction hr with
  | base => exact hub
  | @step f1 f2 e hr1 he hor ih =>
    have hb := hbal e he
    rcases hor with ⟨hf, hf'⟩ | ⟨hf, hf'⟩
    · rw [hf, ih] at hb
      rw [← hf', ← hb]
    · rw [hf, ih] at hb
      rw [← hf', hb]

theorem fill_foldl_none_back (g : WGraph) (l : List ℕ) (w : FMap) (f : ℕ)
    (h : (l.foldl (fillStep g) w) f = none) : w f = none := by
  cases hw : w f with
  | none => rfl
  | some b =>
    rw [fill_foldl_persist g l w f b hw] at h
    cases h

theorem fillPass_count_mono (g : WGraph) (w : FMap) :
    nullCount g (fillPass g w) ≤ nullCount g w := by
  apply filter_length_mono
  intro f _ hp
  have hn : (fillPass g w) f = none := by
    cases hc : (fillPass g w) f with
    | none => rfl
    | some m => rw [hc] at hp; simp at hp
  rw [fill_foldl_none_back g g.edges w f hn]
  rfl

theorem fill_foldl_changed (g : WGraph)
    (hfaces : ∀ e ∈ g.edges, g.fface e ∈ g.faces ∧ g.rface e ∈ g.faces) :
    ∀ (l : List ℕ), (∀ x ∈ l, x ∈ g.edges) → ∀ (w : FMap) (f : ℕ),
    (l.foldl (fillStep g) w) f ≠ w f → f ∈ g.faces := by
  intro l
  induction l with
  | nil => intro _ w f hne; exact absurd rfl hne
  | cons e0 rest ih =>
    intro hsub w f hne
    rw [List.foldl_cons] at hne
    by_cases hstep : fillStep g w e0 f = w f
    · refine ih (fun x hx => hsub x (List.mem_cons_of_mem e0 hx)) (fillStep g w e0) f ?_
      intro hc
      rw [hc, hstep] at hne
      exact hne rfl
    · have he0 : e0 ∈ g.edges := hsub e0 (List.mem_cons_self e0 rest)
      cases h1 : w (g.fface e0) with
      | none =>
        cases h2 : w (g.rface e0) with
        | none =>
          rw [fillStep_eq_stay_none g w e0 h1 h2] at hstep
          exact absurd rfl hstep
        | some b2 =>
          rw [fillStep_eq_fwd g w e0 b2 h1 h2] at hstep
          by_cases hf : f = g.fface e0
          · rw [hf]; exact (hfaces e0 he0).1
          · simp only [if_neg hf] at hstep
            exact absurd trivial hstep
      | some b1 =>
        cases h2 : w (g.rface e0) with
        | none =>
          rw [fillStep_eq_rev g w e0 b1 h1 h2] at hstep
          by_cases hf : f = g.rface e0
          · rw [hf]; exact (hfaces e0 he0).2
          · simp only [if_neg hf] at hstep
            exact absurd trivial hstep
        | some b2 =>
          rw [fillStep_eq_stay_some g w e0 b1 b2 h1 h2] at hstep
          exact absurd rfl hstep

theorem fillPass_count_strict (g : WGraph)
    (hfaces : ∀ e ∈ g.edges, g.fface e ∈ g.faces ∧ g.rface e ∈ g.faces)
    (w : FMap) (hne : fillPass g w ≠ w) :
    nullCount g (fillPass g w) < nullCount g w := by
  obtain ⟨f, hf⟩ := Function.ne_iff.1 hne
  have hfmem : f ∈ g.faces := fill_foldl_changed g hfaces g.edges (fun x hx => hx) w f hf
  have hwn : w f = none := by
    cases hw : w f with
    | none => rfl
    | some b =>
      have hp : fillPass g w f = some b := fill_foldl_persist g g.edges w f b hw
      rw [hp, hw] at hf
      exact absurd rfl hf
  have hps : (fillPass g w) f ≠ none := by
    intro hc
    rw [hc, hwn] at hf
    exact hf rfl
  apply filter_length_strict g.faces _ _ ?_ f hfmem
  · rw [hwn]; rfl
  · cases hc : (fillPass g w) f with
    | none => exact absurd hc hps
    | some b => rfl
  · intro x _ hp
    have hn : (fillPass g w) x = none := by
      cases hc : (fillPass g w) x with
      | none => rfl
      | some m => rw [hc] at hp; simp at hp
    rw [fill_foldl_none_back g g.edges w x hn]
    rfl

theorem fillStep_prov (g : WGraph) (w : FMap) (e : ℕ) (he : e ∈ g.edges)
    (hprov : fillProv g w) : fillProv g (fillStep g w e) := by
  cases h1 : w (g.fface e) with
  | none =>
    cases h2 : w (g.rface e) with
    | none => rw [fillStep_eq_stay_none g w e h1 h2]; exact hprov
    | some b2 =>
      rw [fillStep_eq_fwd g w e b2 h1 h2]
      have hneq : g.rface e ≠ g.fface e := by
        intro hc
        rw [hc, h1] at h2
        cases h2
      intro f b hfb
      simp only at hfb
      by_cases hf : f = g.fface e
      · rw [if_pos hf] at hfb
        have hbb : b = !b2 := (Option.some.inj hfb).symm
        refine Or.inr ⟨e, he, b2, Or.inl ⟨hf.symm, fun hc => hneq (hc.trans hf), ?_⟩, hbb⟩
        show (if g.rface e = g.fface e then some (!b2) else w (g.rface e)) = some b2
        rw [if_neg hneq, h2]
      · rw [if_neg hf] at hfb
        rcases hprov f b hfb with hcase | ⟨e', he', b2', hor, hbb⟩
        · exact Or.inl hcase
        · refine Or.inr ⟨e', he', b2', ?_, hbb⟩
          rcases hor with ⟨ha, hb', hval⟩ | ⟨ha, hb', hval⟩
          · refine Or.inl ⟨ha, hb', ?_⟩
            show (if g.rface e' = g.fface e then some (!b2) else w (g.rface e')) = some b2'
            have hne2 : g.rface e' ≠ g.fface e := by
              intro hc
              rw [hc, h1] at hval
              cases hval
            rw [if_neg hne2, hval]
          · refine Or.inr ⟨ha, hb', ?_⟩
            show (if g.fface e' = g.fface e then some (!b2) else w (g.fface e')) = some b2'
            have hne2 : g.fface e' ≠ g.fface e := by
              intro hc
              rw [hc, h1] at hval
              cases hval
            rw [if_neg hne2, hval]
  | some b1 =>
    cases h2 : w (g.rface e) with
    | none =>
      rw [fillStep_eq_rev g w e b1 h1 h2]
      have hneq : g.fface e ≠ g.rface e := by
        intro hc
        rw [hc, h2] at h1
        cases h1
      intro f b hfb
      simp only at hfb
      by_cases hf : f = g.rface e
      · rw [if_pos hf] at hfb
        have hbb : b = !b1 := (Option.some.inj hfb).symm
        refine Or.inr ⟨e, he, b1, Or.inr ⟨hf.symm, fun hc => hneq (hc.trans hf), ?_⟩, hbb⟩
        show (if g.fface e = g.rface e then some (!b1) else w (g.fface e)) = some b1
        rw [if_neg hneq, h1]
      · rw [if_neg hf] at hfb
        rcases hprov f b hfb with hcase | ⟨e', he', b2', hor, hbb⟩
        · exact Or.inl hcase
        · refine Or.inr ⟨e', he', b2', ?_, hbb⟩
          rcases hor with ⟨ha, hb', hval⟩ | ⟨ha, hb', hval⟩
          · refine Or.inl ⟨ha, hb', ?_⟩
            show (if g.rface e' = g.rface e then some (!b1) else w (g.rface e')) = some b2'
            have hne2 : g.rface e' ≠ g.rface e := by
              intro hc
              rw [hc, h2] at hval
              cases hval
            rw [if_neg hne2, hval]
          · refine Or.inr ⟨ha, hb', ?_⟩
            show (if g.fface e' = g.rface e then some (!b1) else w (g.fface e')) = some b2'
            have hne2 : g.fface e' ≠ g.rface e := by
              intro hc
              rw [hc, h2] at hval
              cases hval
            rw [if_neg hne2, hval]
    | some b2 => rw [fillStep_eq_stay_some g w e b1 b2 h1 h2]; exact hprov

theorem fill_foldl_prov (g : WGraph) : ∀ (l : List ℕ), (∀ x ∈ l, x ∈ g.edges) →
    ∀ (w : FMap), fillProv g w → fillProv g (l.foldl (fillStep g) w) := by
  intro l
  induction l with
  | nil => intro _ w h; exact h
  | cons e rest ih =>
    intro hsub w h
    rw [List.foldl_cons]
    exact ih (fun x hx => hsub x (List.mem_cons_of_mem e hx)) (fillStep g w e)
      (fillStep_prov g w e (hsub e (List.mem_cons_self e rest)) h)

theorem fill_foldl_reach (g : WGraph) : ∀ (l : List ℕ), (∀ x ∈ l, x ∈ g.edges) →
    ∀ (w : FMap), (∀ f, (w f).isSome = true → WReach g f) →
    ∀ f, ((l.foldl (fillStep g) w) f).isSome = true → WReach g f := by
  intro l
  induction l with
  | nil => intro _ w h; exact h
  | cons e rest ih =>
    intro hsub w h
    rw [List.foldl_cons]
    refine ih (fun x hx => hsub x (List.mem_cons_of_mem e hx)) (fillStep g w e) ?_
    intro f hsome
    have he : e ∈ g.edges := hsub e (List.mem_cons_self e rest)
    cases h1 : w (g.fface e) with
    | none =>
      cases h2 : w (g.rface e) with
      | none =>
        rw [fillStep_eq_stay_none g w e h1 h2] at hsome
        exact h f hsome
      | some b2 =>
        rw [fillStep_eq_fwd g w e b2 h1 h2] at hsome
        simp only at hsome
        by_cases hf : f = g.fface e
        · have hr2 : WReach g (g.rface e) := h _ (by rw [h2]; rfl)
          exact hf ▸ WReach.step hr2 he (Or.inr ⟨rfl, rfl⟩)
        · rw [if_neg hf] at hsome
          exact h f hsome
    | some b1 =>
      cases h2 : w (g.rface e) with
      | none =>
        rw [fillStep_eq_rev g w e b1 h1 h2] at hsome
        simp only at hsome
        by_cases hf : f = g.rface e
        · have hr2 : WReach g (g.fface e) := h _ (by rw [h1]; rfl)
          exact hf ▸ WReach.step hr2 he (Or.inl ⟨rfl, rfl⟩)
        · rw [if_neg hf] at hsome
          exact h f hsome
      | some b2 =>
        rw [fillStep_eq_stay_some g w e b1 b2 h1 h2] at hsome
        exact h f hsome

theorem fillLoop_post (g : WGraph) : ∀ (n : ℕ) (w wf : FMap),
    fillLoop g n w = some wf →
    nullCount g wf = 0 ∧ (∀ f b, w f = some b → wf f = some b) := by
  intro n
  induction n with
  | zero =>
    intro w wf hrun
    rw [fillLoop] at hrun
    by_cases hc : nullCount g w = 0
    · rw [if_pos hc] at hrun
      have := Option.some.inj hrun
      subst this
      exact ⟨hc, fun f b h => h⟩
    · rw [if_neg hc] at hrun
      cases hrun
  | succ n ih =>
    intro w wf hrun
    rw [fillLoop] at hrun
    by_cases hc : nullCount g w = 0
    · rw [if_pos hc] at hrun
      have := Option.some.inj hrun
      subst this
      exact ⟨hc, fun f b h => h⟩
    · rw [if_neg hc] at hrun
      obtain ⟨h0, hp⟩ := ih (fillPass g w) wf hrun
      exact ⟨h0, fun f b h => hp f b (fill_foldl_persist g g.edges w f b h)⟩

theorem fillLoop_prov (g : WGraph) : ∀ (n : ℕ) (w wf : FMap),
    fillProv g w → fillLoop g n w = some wf → fillProv g wf := by
  intro n
  induction n with
  | zero =>
    intro w wf hprov hrun
    rw [fillLoop] at hrun
    by_cases hc : nullCount g w = 0
    · rw [if_pos hc] at hrun
      have := Option.some.inj hrun
      subst this
      exact hprov
    · rw [if_neg hc] at hrun
      cases hrun
  | succ n ih =>
    intro w wf hprov hrun
    rw [fillLoop] at hrun
    by_cases hc : nullCount g w = 0
    · rw [if_pos hc] at hrun
      have := Option.some.inj hrun
      subst this
      exact hprov
    · rw [if_neg hc] at hrun
      exact ih (fillPass g w) wf
        (fill_foldl_prov g g.edges (fun x hx => hx) w hprov) hrun

theorem fillLoop_reach (g : WGraph) : ∀ (n : ℕ) (w wf : FMap),
    (∀ f, (w f).isSome = true → WReach g f) → fillLoop g n w = some wf →
    ∀ f, (wf f).isSome = true → WReach g f := by
  intro n
  induction n with
  | zero =>
    intro w wf hinv hrun
    rw [fillLoop] at hrun
    by_cases hc : nullCount g w = 0
    · rw [if_pos hc] at hrun
      have := Option.some.inj hrun
      subst this
      exact hinv
    · rw [if_neg hc] at hrun
      cases hrun
  | succ n ih =>
    intro w wf hinv hrun
    rw [fillLoop] at hrun
    by_cases hc : nullCount g w = 0
    · rw [if_pos hc] at hrun
      have := Option.some.inj hrun
      subst this
      exact hinv
    · rw [if_neg hc] at hrun
      exact ih (fillPass g w) wf
        (fill_foldl_reach g g.edges (fun x hx => hx) w hinv) hrun

theorem fillLoop_total (g : WGraph)
    (hfaces : ∀ e ∈ g.edges, g.fface e ∈ g.faces ∧ g.rface e ∈ g.faces)
    (hreach : ∀ f ∈ g.faces, WReach g f) :
    ∀ (n : ℕ) (w : FMap), w g.unbounded = some false → nullCount g w ≤ n →
    ∃ wf, fillLoop g n w = some wf := by
  intro n
  induction n with
  | zero =>
    intro w hub hn
    refine ⟨w, ?_⟩
    rw [fillLoop, if_pos (by omega)]
  | succ n ih =>
    intro w hub hn
    by_cases hc : nullCount g w = 0
    · exact ⟨w, by rw [fillLoop, if_pos hc]⟩
    · by_cases hfix : fillPass g w = w
      · exfalso
        have hex : ∃ f, f ∈ g.faces.filter (fun f => (w f).isNone) := by
          cases hl : g.faces.filter (fun f => (w f).isNone) with
          | nil => exact absurd (by rw [nullCount, hl]; rfl) hc
          | cons f t => exact ⟨f, hl ▸ List.mem_cons_self f t⟩
        obtain ⟨f, hf⟩ := hex
        have hfm := List.mem_filter.1 hf
        have hnone : w f = none := by
          cases hw : w f with
          | none => rfl
          | some b => rw [hw] at hfm; simp at hfm
        have hsome := fill_reach_solved g w (fillPass_fix_balanced g w hfix)
          (by rw [hub]; rfl) f (hreach f hfm.1)
        rw [hnone] at hsome
        cases hsome
      · have hstrict := fillPass_count_strict g hfaces w hfix
        have hub' : (fillPass g w) g.unbounded = some false :=
          fill_foldl_persist g g.edges w _ false hub
        obtain ⟨wf, hrun⟩ := ih (fillPass g w) hub' (by omega)
        refine ⟨wf, ?_⟩
        rw [fillLoop, if_neg hc]
        exact hrun

theorem nullCount_zero_some (g : WGraph) (w : FMap) (h : nullCount g w = 0) :
    ∀ f ∈ g.faces, ∃ b, w f = some b := by
  intro f hf
  cases hw : w f with
  | some b => exact ⟨b, rfl⟩
  | none =>
    exfalso
    have hmem : f ∈ g.faces.filter (fun f => (w f).isNone) :=
      List.mem_filter.2 ⟨hf, by rw [hw]; rfl⟩
    rw [nullCount] at h
    rw [List.length_eq_zero.1 h] at hmem
    cases hmem

/-- Claim C10: `fillAlternatingFaces` terminates (for some fuel; the
embedded fuel counts outer `while` passes and models the unbounded JS
loop) if and only if every face is reachable from the unbounded face by
stepping between the two faces of an edge; on termination the unbounded
face is unfilled, every face carries a boolean, and each face other than
the unbounded one holds the negation of the value of a face sharing an
edge with it. -/
theorem fillAlternatingFaces_spec (g : WGraph)
    (hfaces : ∀ e ∈ g.edges, g.fface e ∈ g.faces ∧ g.rface e ∈ g.faces) :
    ((∃ fuel wf, fillAlternatingFaces g fuel = some wf) ↔ ∀ f ∈ g.faces, WReach g f) ∧
    (∀ fuel wf, fillAlternatingFaces g fuel = some wf →
      wf g.unbounded = some false ∧
      (∀ f ∈ g.faces, ∃ b, wf f = some b) ∧
      (∀ f ∈ g.faces, f ≠ g.unbounded →
        ∃ e ∈ g.edges, ∃ b : Bool,
          ((g.fface e = f ∧ g.rface e ≠ f ∧ wf (g.rface e) = some b) ∨
           (g.rface e = f ∧ g.fface e ≠ f ∧ wf (g.fface e) = some b)) ∧
          wf f = some (!b))) := by
  have hinit_ub : (fillInit g) g.unbounded = some false := by
    rw [fillInit, if_pos rfl]
  have hinit_prov : fillProv g (fillInit g) := by
    intro f b hfb
    rw [fillInit] at hfb
    by_cases hf : f = g.unbounded
    · rw [if_pos hf] at hfb
      exact Or.inl ⟨hf, (Option.some.inj hfb).symm⟩
    · rw [if_neg hf] at hfb
      cases hfb
  have hinit_reach : ∀ f, ((fillInit g) f).isSome = true → WReach g f := by
    intro f hf
    rw [fillInit] at hf
    by_cases h : f = g.unbounded
    · exact h ▸ WReach.base
    · rw [if_neg h] at hf
      cases hf
  constructor
  · constructor
    · rintro ⟨fuel, wf, hrun⟩ f hf
      rw [fillAlternatingFaces] at hrun
      obtain ⟨h0, -⟩ := fillLoop_post g fuel (fillInit g) wf hrun
      obtain ⟨b, hb⟩ := nullCount_zero_some g wf h0 f hf
      exact fillLoop_reach g fuel (fillInit g) wf hinit_reach hrun f (by rw [hb]; rfl)
    · intro hreach
      obtain ⟨wf, hrun⟩ := fillLoop_total g hfaces hreach (nullCount g (fillInit g))
        (fillInit g) hinit_ub (le_refl _)
      exact ⟨nullCount g (fillInit g), wf, by rw [fillAlternatingFaces]; exact hrun⟩
  · intro fuel wf hrun
    rw [fillAlternatingFaces] at hrun
    obtain ⟨h0, hpersist⟩ := fillLoop_post g fuel (fillInit g) wf hrun
    have hprov := fillLoop_prov g fuel (fillInit g) wf hinit_prov hrun
    refine ⟨hpersist g.unbounded false hinit_ub, nullCount_zero_some g wf h0, ?_⟩
    intro f hf hne
    obtain ⟨b, hb⟩ := nullCount_zero_some g wf h0 f hf
    rcases hprov f b hb with ⟨hceq, -⟩ | ⟨e, he, b2, hor, hbb⟩
    · exact absurd hceq hne
    · exact ⟨e, he, b2, hor, hbb ▸ hb⟩

/-- Witness for C10 on the one-edge two-face graph. -/
theorem fillAlternatingFaces_spec_witness :
    (let gF : WGraph := ⟨[0, 1], 0, [0], fun _ => 1, fun _ => 0,
        [⟨0, [⟨0, true⟩]⟩], [0]⟩
     ((∃ fuel wf, fillAlternatingFaces gF fuel = some wf) ↔
        ∀ f ∈ gF.faces, WReach gF f) ∧
     (∀ fuel wf, fillAlternatingFaces gF fuel = some wf →
        wf gF.unbounded = some false ∧
        (∀ f ∈ gF.faces, ∃ b, wf f = some b) ∧
        (∀ f ∈ gF.faces, f ≠ gF.unbounded →
          ∃ e ∈ gF.edges, ∃ b : Bool,
            ((gF.fface e = f ∧ gF.rface e ≠ f ∧ wf (gF.rface e) = some b) ∨
             (gF.rface e = f ∧ gF.fface e ≠ f ∧ wf (gF.fface e) = some b)) ∧
            wf f = some (!b)))) :=
  fillAlternatingFaces_spec
    ⟨[0, 1], 0, [0], fun _ => 1, fun _ => 0, [⟨0, [⟨0, true⟩]⟩], [0]⟩
    (by decide)

end Kite
